import Mathlib

/-!
Verification of the ProveNuance2 inference core: a shallow embedding of the
stratified Datalog solver (`solver/engine.py`, `solver/loader.py`) and of the
rule validator (`validator/rule_validator.py`, `validator/manifest_index.py`,
`validator/normalizer.py`), together with proofs and refutations of the
specification claims about them.

Modelling conventions:
* Python strings are Lean `String`s; Python tuples/lists of strings are
  `List String`.
* A Python `dict` is an association list whose lookup returns the first
  binding; a Python `set` is a duplicate-free list (code that inserts checks
  membership first, as the source does via `set.add`).  Set/dict iteration
  order in Python is arbitrary; the embedding fixes insertion order.  All
  theorems below are insensitive to that order (see the comments at the
  relevant proofs).
* Python `float(...)` parsing inside builtin evaluation is modelled by exact
  decimal rationals (`parseNum`); the claims proved below do not depend on
  the numeric values of builtins.  The claim that does (C4) is reported as
  not statable precisely because of floating point.
-/

namespace PN2

/-- Logical atom from `solver/types.py`: `pred(arg1, ...)`, possibly negated
(negation as failure). -/
structure Atom where
  pred : String
  args : List String
  negated : Bool
deriving DecidableEq, Repr

/-- Horn rule from `solver/types.py`: `head :- body`. -/
structure Rule where
  rule_id : String
  fragment_id : String
  head_pred : String
  head_args : List String
  body : List Atom
deriving DecidableEq, Repr

/-- `BUILTINS` from `solver/engine.py` (a `frozenset`, here a list). -/
def BUILTINS : List String := ["ge", "gt", "le", "lt", "eq", "ne"]

def isBuiltinPred (p : String) : Bool := BUILTINS.contains p

/-- A term is a variable when it starts with `?` (`term.startswith("?")`). -/
def isVarT (s : String) : Bool := s.toList.head? = some '?'

/-- Substitutions: Python `dict[str, str]` as an association list. -/
abbrev Sub := List (String × String)

def subLookup : Sub → String → Option String
  | [], _ => none
  | (k, v) :: rest, x => if k = x then some v else subLookup rest x

/-- Assignment `s[k] = v` on a dict: overwrite the binding if present. -/
def subInsert : Sub → String → String → Sub
  | [], k, v => [(k, v)]
  | (k', v') :: rest, k, v =>
    if k' = k then (k, v) :: rest else (k', v') :: subInsert rest k v

/-- Fuel-indexed body of `_walk`: follow the substitution chain for a
variable, with a `seen` set guarding against cycles.  The fuel is a
modelling device only: `walk` supplies `s.length + 1`, which the chain
(visiting pairwise distinct keys of `s`) can never exhaust. -/
def walkAux (s : Sub) : Nat → List String → String → String
  | 0, _, t => t
  | fuel + 1, seen, t =>
    if isVarT t then
      match subLookup s t with
      | none => t
      | some v => if t ∈ seen then t else walkAux s fuel (t :: seen) v
    else t

/-- `_walk` from `solver/engine.py`. -/
def walk (t : String) (s : Sub) : String :=
  walkAux s (s.length + 1) [] t

/-- `_apply` from `solver/engine.py`. -/
def applyArgs (args : List String) (s : Sub) : List String :=
  args.map (fun a => walk a s)

/-- Loop body of `_unify`: zip of pattern against ground tuple. -/
def unifyAux (s : Sub) : List String → List String → Option Sub
  | [], [] => some s
  | p :: ps, g :: gs =>
    let p' := walk p s
    let g' := walk g s
    if p' = g' then unifyAux s ps gs
    else if isVarT p' then unifyAux (subInsert s p' g') ps gs
    else if isVarT g' then unifyAux (subInsert s g' p') ps gs
    else none
  | _, _ => none

/-- `_unify` from `solver/engine.py` (length check, then pairwise walk). -/
def unify (pat ground : List String) (s : Sub) : Option Sub :=
  if pat.length = ground.length then unifyAux s pat ground else none

/-- Digits of a decimal literal to a natural number. -/
def natOfDigits (l : List Char) : Nat :=
  l.foldl (fun acc c => acc * 10 + (c.toNat - 48)) 0

/-- Model of Python `float(...)` applied to a string, as an exact decimal
rational: optional sign, integer part, optional fractional part, optional
exponent.  Python additionally accepts `inf`/`nan`, digit underscores and
surrounding whitespace, and rounds to IEEE-754 binary64; none of the
theorems in this file depend on the numeric outcome of a builtin, so the
exact-rational idealisation is harmless here (and is the reason claim C4 is
not settled by a theorem). -/
def parseNum (s : String) : Option ℚ :=
  let l := s.toList
  let sgn : ℚ := if l.head? = some '-' then -1 else 1
  let l₁ := match l with
    | '-' :: rest => rest
    | '+' :: rest => rest
    | _ => l
  let ip := l₁.takeWhile Char.isDigit
  let l₂ := l₁.dropWhile Char.isDigit
  let fp := match l₂ with
    | '.' :: rest => rest.takeWhile Char.isDigit
    | _ => []
  let l₃ := match l₂ with
    | '.' :: rest => rest.dropWhile Char.isDigit
    | _ => l₂
  if ip = [] ∧ fp = [] then none
  else
    let mant : ℚ := (natOfDigits ip : ℚ) + (natOfDigits fp : ℚ) / ((10 : ℚ) ^ fp.length)
    match l₃ with
    | [] => some (sgn * mant)
    | c :: rest =>
      if c = 'e' ∨ c = 'E' then
        let eneg := rest.head? = some '-'
        let r₁ := match rest with
          | '-' :: r => r
          | '+' :: r => r
          | _ => rest
        let ed := r₁.takeWhile Char.isDigit
        let r₂ := r₁.dropWhile Char.isDigit
        if ed = [] ∨ r₂ ≠ [] then none
        else if eneg then some (sgn * (mant / ((10 : ℚ) ^ natOfDigits ed)))
        else some (sgn * (mant * ((10 : ℚ) ^ natOfDigits ed)))
      else none

/-- `_eval_builtin` from `solver/engine.py`: numeric comparison first; on a
parse failure `eq`/`ne` fall back to string comparison and the ordered
builtins are false.  (The `KeyError` arm of the source collapses to the
same fallback, which yields `false` for a predicate outside the six.) -/
def evalBuiltin (pred : String) (args : List String) : Bool :=
  match args with
  | [a, b] =>
    match parseNum a, parseNum b with
    | some x, some y =>
      if pred = "ge" then decide (x ≥ y)
      else if pred = "gt" then decide (x > y)
      else if pred = "le" then decide (x ≤ y)
      else if pred = "lt" then decide (x < y)
      else if pred = "eq" then decide (x = y)
      else if pred = "ne" then decide (x ≠ y)
      else
        if pred = "eq" then decide (a = b)
        else if pred = "ne" then decide (a ≠ b)
        else false
    | _, _ =>
      if pred = "eq" then decide (a = b)
      else if pred = "ne" then decide (a ≠ b)
      else false
  | _ => false

/-- The two quote characters removed by `strip("\"'")` (code points 34 and
39). -/
def isQuoteC (c : Char) : Bool := c.toNat = 34 ∨ c.toNat = 39

/-- Remove characters satisfying `p` from both ends (Python `str.strip(chars)`). -/
def stripChars (p : Char → Bool) (l : List Char) : List Char :=
  ((l.dropWhile p).reverse.dropWhile p).reverse

/-- `cond_id = atom.args[1].strip("\"'")`. -/
def stripQuotes (s : String) : String :=
  String.mk (stripChars isQuoteC s.toList)

/-- `_first_var` from `solver/engine.py`: first `?`-variable in atom order. -/
def firstVar : List Atom → Option String
  | [] => none
  | a :: rest =>
    match a.args.find? isVarT with
    | some v => some v
    | none => firstVar rest

/-- Renaming of one argument inside `_freshen`: constants unchanged, the
entity variable replaced, every other variable suffixed with `_mc<cnt>`. -/
def freshArg (entityVar repl : String) (cnt : Nat) (arg : String) : String :=
  if ¬ isVarT arg then arg
  else if arg = entityVar then repl
  else arg ++ "_mc" ++ toString cnt

/-- `_freshen` from `solver/engine.py`. -/
def freshen (atoms : List Atom) (entityVar repl : String) (cnt : Nat) : List Atom :=
  atoms.map (fun a => { a with args := a.args.map (freshArg entityVar repl cnt) })

/-- Conditions table `dict[str, list[Atom]]` as an association list. -/
abbrev Conds := List (String × List Atom)

def condLookup : Conds → String → Option (List Atom)
  | [], _ => none
  | (k, v) :: rest, x => if k = x then some v else condLookup rest x

/-- Body traversal of `expand_meets_condition`, threading the
`itertools.count()` counter.  Note the source draws a counter value for
every known condition, whether or not an entity variable exists. -/
def expandBody (conds : Conds) : List Atom → Nat → List Atom × Nat
  | [], cnt => ([], cnt)
  | a :: rest, cnt =>
    if a.pred = "meets_condition" then
      match a.args with
      | [entityArg, cidRaw] =>
        match condLookup conds (stripQuotes cidRaw) with
        | some req =>
          let expandedAtoms := match firstVar req with
            | some ev => freshen req ev entityArg cnt
            | none => req
          let tail := expandBody conds rest (cnt + 1)
          (expandedAtoms ++ tail.1, tail.2)
        | none =>
          let tail := expandBody conds rest cnt
          (a :: tail.1, tail.2)
      | _ =>
        let tail := expandBody conds rest cnt
        (a :: tail.1, tail.2)
    else
      let tail := expandBody conds rest cnt
      (a :: tail.1, tail.2)

def expandRulesAux (conds : Conds) : List Rule → Nat → List Rule
  | [], _ => []
  | r :: rest, cnt =>
    let b := expandBody conds r.body cnt
    { r with body := b.1 } :: expandRulesAux conds rest b.2

/-- `expand_meets_condition` from `solver/engine.py`: the counter starts at
zero and is shared across all rules of one call. -/
def expand_meets_condition (rules : List Rule) (conds : Conds) : List Rule :=
  expandRulesAux conds rules 0

/-- `_safe_reorder_body` from `solver/engine.py`: positive non-builtins,
then builtins, then negations, each group in source order. -/
def safeReorderBody (body : List Atom) : List Atom :=
  body.filter (fun a => !a.negated && !isBuiltinPred a.pred)
    ++ body.filter (fun a => !a.negated && isBuiltinPred a.pred)
    ++ body.filter (fun a => a.negated)

/-- Insertion into a Python set modelled as a duplicate-free list. -/
def insertNew (l : List String) (x : String) : List String :=
  if x ∈ l then l else l ++ [x]

/-- The `preds` set of `compute_strata`: head predicates and all non-builtin
body predicates, in insertion order. -/
def rulePreds (rules : List Rule) : List String :=
  rules.foldl
    (fun acc r =>
      (r.body.filter (fun a => !isBuiltinPred a.pred)).foldl
        (fun acc2 a => insertNew acc2 a.pred) (insertNew acc r.head_pred))
    []

/-- `pos_deps.get(p, set())`: non-builtin positive body predicates of rules
with head `p`. -/
def posDepsOf (rules : List Rule) (p : String) : List String :=
  rules.foldl
    (fun acc r =>
      if r.head_pred = p then
        (r.body.filter (fun a => !isBuiltinPred a.pred && !a.negated)).foldl
          (fun acc2 a => insertNew acc2 a.pred) acc
      else acc)
    []

/-- `neg_deps.get(p, set())`: non-builtin negated body predicates of rules
with head `p`. -/
def negDepsOf (rules : List Rule) (p : String) : List String :=
  rules.foldl
    (fun acc r =>
      if r.head_pred = p then
        (r.body.filter (fun a => !isBuiltinPred a.pred && a.negated)).foldl
          (fun acc2 a => insertNew acc2 a.pred) acc
      else acc)
    []

/-- `all_deps[p] = pos_deps[p] | neg_deps[p]`. -/
def allDepsOf (rules : List Rule) (p : String) : List String :=
  (negDepsOf rules p).foldl insertNew (posDepsOf rules p)

/-- Inner loop of `compute_strata` over the positive dependencies of `p`:
raise `stratum[p]` to `stratum[dep]` whenever it is below it. -/
def stepPosDeps (p : String) : List String → (String → Nat) → Bool → (String → Nat) × Bool
  | [], st, ch => (st, ch)
  | d :: rest, st, ch =>
    if st p < st d then
      stepPosDeps p rest (fun x => if x = p then st d else st x) true
    else stepPosDeps p rest st ch

/-- Inner loop of `compute_strata` over the negative dependencies of `p`:
raise `stratum[p]` to `stratum[dep] + 1` whenever it is below it. -/
def stepNegDeps (p : String) : List String → (String → Nat) → Bool → (String → Nat) × Bool
  | [], st, ch => (st, ch)
  | d :: rest, st, ch =>
    if st p < st d + 1 then
      stepNegDeps p rest (fun x => if x = p then st d + 1 else st x) true
    else stepNegDeps p rest st ch

/-- One pass of the `while` loop of `compute_strata` over all predicates. -/
def sweepPreds (pos neg : String → List String) : List String → (String → Nat) → Bool → (String → Nat) × Bool
  | [], st, ch => (st, ch)
  | p :: rest, st, ch =>
    let s1 := stepPosDeps p (pos p) st ch
    let s2 := stepNegDeps p (neg p) s1.1 s1.2
    sweepPreds pos neg rest s2.1 s2.2

/-- The `while changed and iters < max_iter` loop of `compute_strata`.  The
fuel counts the passes still allowed before `iters` reaches `max_iter`; the
returned flag is the source's post-loop test `iters >= max_iter` (true means
the `ValueError` is raised). -/
def csLoop (pos neg : String → List String) (preds : List String) : Nat → (String → Nat) → (String → Nat) × Bool
  | 0, st => (st, true)
  | fuel + 1, st =>
    let s := sweepPreds pos neg preds st false
    if s.2 then csLoop pos neg preds fuel s.1 else (s.1, fuel == 0)

/-- The stack-based DFS inside `_find_neg_cycle_preds` (`reachable`).  The
fuel is a modelling device: each step pops one stack entry, and
`depsFuel` below over-approximates the total number of pops. -/
def dfsVisit (deps : String → List String) : Nat → List String → List String → List String
  | 0, _, visited => visited
  | _ + 1, [], visited => visited
  | fuel + 1, node :: stack, visited =>
    if node ∈ visited then dfsVisit deps fuel stack visited
    else dfsVisit deps fuel (deps node ++ stack) (node :: visited)

/-- Fuel bound for `dfsVisit`: one more than the potential
`stack.length + Σ_{p unvisited} (|deps p| + 1)` of the initial state. -/
def depsFuel (rules : List Rule) : Nat :=
  ((rulePreds rules).map (fun p => (allDepsOf rules p).length + 1)).sum + 2

/-- `reachable(start)` of `_find_neg_cycle_preds`: all predicates reachable
from `start` through any (positive or negative) dependency edge, `start`
included. -/
def reachableFrom (rules : List Rule) (q : String) : List String :=
  dfsVisit (allDepsOf rules) (depsFuel rules) [q] []

/-- Lexicographic code-point comparison (Python string `<`). -/
def charsLt : List Char → List Char → Bool
  | [], [] => false
  | [], _ :: _ => true
  | _ :: _, [] => false
  | c :: cs, d :: ds =>
    if c.toNat < d.toNat then true
    else if d.toNat < c.toNat then false
    else charsLt cs ds

/-- Insertion sort on strings (the source formats `sorted(cycle_preds)`). -/
def insSortIns (x : String) : List String → List String
  | [] => [x]
  | y :: ys => if charsLt x.toList y.toList then x :: y :: ys else y :: insSortIns x ys

def insSort : List String → List String
  | [] => []
  | x :: xs => insSortIns x (insSort xs)

/-- `_find_neg_cycle_preds`: predicates `p`, `q` such that `p` negatively
depends on `q` and `p` is reachable from `q` through any dependencies. -/
def findNegCyclePreds (rules : List Rule) : List String :=
  insSort
    ((rulePreds rules).foldl
      (fun acc p =>
        (negDepsOf rules p).foldl
          (fun acc2 q =>
            if p ∈ reachableFrom rules q then insertNew (insertNew acc2 p) q else acc2)
          acc)
      [])

/-- `compute_strata` from `solver/engine.py`.  `Except.error` carries the
predicates named by the raised `ValueError` (the message prints the first
ten of the sorted list). -/
def compute_strata (rules : List Rule) : Except (List String) (List (String × Nat)) :=
  let preds := rulePreds rules
  let n := preds.length
  let maxIter := n * n + n + 2
  let res := csLoop (posDepsOf rules) (negDepsOf rules) preds maxIter (fun _ => 0)
  if res.2 then Except.error (findNegCyclePreds rules)
  else Except.ok (preds.map (fun p => (p, res.1 p)))

/-- Fact store: `dict[str, set[tuple[str, ...]]]`. -/
abbrev Facts := List (String × List (List String))

def fGet : Facts → String → List (List String)
  | [], _ => []
  | (k, v) :: rest, p => if k = p then v else fGet rest p

/-- `facts.setdefault(pred, set()).add(t)`: extend the first binding of the
key (inserting the tuple only if absent), or append a new binding. -/
def fAdd : Facts → String → List String → Facts
  | [], p, t => [(p, [t])]
  | (k, v) :: rest, p, t =>
    if k = p then (k, if t ∈ v then v else v ++ [t]) :: rest
    else (k, v) :: fAdd rest p t

/-- Substitutions produced by unifying one positive atom's pattern against
each stored fact in turn. -/
def unifyCandidates (pat : List String) (facts : List (List String)) (s : Sub) : List Sub :=
  facts.foldr
    (fun t acc =>
      match unify pat t s with
      | some s' => s' :: acc
      | none => acc)
    []

/-- `_match_body` from `solver/engine.py`, as the list of all substitutions
the generator yields (body processed left to right; builtins and negated
atoms prune when an argument is still a variable after substitution). -/
def matchBody (F : Facts) : List Atom → Sub → List Sub
  | [], s => [s]
  | a :: rest, s =>
    let grounded := applyArgs a.args s
    if isBuiltinPred a.pred then
      if grounded.any isVarT then []
      else if evalBuiltin a.pred grounded != a.negated then matchBody F rest s
      else []
    else if a.negated then
      if grounded.any isVarT then []
      else if grounded ∈ fGet F a.pred then []
      else matchBody F rest s
    else
      (unifyCandidates a.args (fGet F a.pred) s).flatMap (fun s' => matchBody F rest s')

/-- Predicates of the positive non-builtin body atoms of a rule.  These are
exactly the predicates whose fact sets the generator `_match_body` holds
live iterators over whenever it has yielded a substitution. -/
def rulePosPreds (r : Rule) : List String :=
  (r.body.filter (fun a => !a.negated && !isBuiltinPred a.pred)).map Atom.pred

/-- Message of the Python `RuntimeError` modelled in `applySubsts`. -/
def setMutationMsg : String := "Set changed size during iteration"

/-- Message of the `ValueError` raised on fixed-point overrun. -/
def fixpointOverrunMsg : String := "Fixed-point did not converge"

/-- Consumption of the substitutions `_match_body` yields for one rule
inside `_eval_stratum`: ground the head, skip non-ground heads and heads
already stored, otherwise insert and record a change.

The error arm models a genuine CPython behaviour of the source: the
substitutions are produced lazily, and whenever one of them has been
yielded, every positive non-builtin body atom holds a live iterator over
its predicate's fact set.  Inserting a *new* head tuple therefore mutates a
set under iteration exactly when the head predicate occurs positively
(non-builtin) in the body, and the very next resumption of the generator
raises `RuntimeError: Set changed size during iteration`.  (Mutation-free
prefixes of the stream coincide with this snapshot semantics, so the
condition is order-independent; NAF lookups cannot be affected because
stratification puts negated predicates in strictly lower strata.) -/
def applySubsts (r : Rule) : List Sub → Facts → Bool → Except String (Facts × Bool)
  | [], F, ch => Except.ok (F, ch)
  | s :: rest, F, ch =>
    let t := applyArgs r.head_args s
    if t.any isVarT then applySubsts r rest F ch
    else if t ∈ fGet F r.head_pred then applySubsts r rest F ch
    else if r.head_pred ∈ rulePosPreds r then Except.error setMutationMsg
    else applySubsts r rest (fAdd F r.head_pred t) true

/-- One iteration of the `while changed` loop of `_eval_stratum` over the
given rules. -/
def evalPass : List Rule → Facts → Bool → Except String (Facts × Bool)
  | [], F, ch => Except.ok (F, ch)
  | r :: rest, F, ch =>
    match applySubsts r (matchBody F r.body []) F ch with
    | Except.error e => Except.error e
    | Except.ok s => evalPass rest s.1 s.2

/-- `_MAX_STRATUM_ITERS` from `solver/engine.py`. -/
def MAX_STRATUM_ITERS : Nat := 100000

/-- `_eval_stratum`: fixed point of `evalPass`, the fuel counting the
iterations still allowed before the overrun `ValueError`. -/
def evalStratum (rules : List Rule) : Nat → Facts → Except String Facts
  | 0, _ => Except.error fixpointOverrunMsg
  | fuel + 1, F =>
    match evalPass rules F false with
    | Except.error e => Except.error e
    | Except.ok s => if s.2 then evalStratum rules fuel s.1 else Except.ok s.1

/-- `strata.get(pred, default)` over the stratum association list. -/
def strataGet : List (String × Nat) → String → Nat
  | [], _ => 0
  | (k, v) :: rest, p => if k = p then v else strataGet rest p

/-- The Datalog evaluator after construction: the expanded and reordered
rules, the computed strata, and the owned fact store. -/
structure Evaluator where
  rules : List Rule
  strata : List (String × Nat)
  facts : Facts
deriving DecidableEq, Repr

/-- `Evaluator.__init__`: expand `meets_condition`, reorder every body,
compute the stratification (propagating its `ValueError`), keep the facts. -/
def mkEvaluator (rules : List Rule) (facts : Facts) (conds : Conds) : Except (List String) Evaluator :=
  let expanded := expand_meets_condition rules conds
  let reordered := expanded.map (fun r => { r with body := safeReorderBody r.body })
  match compute_strata reordered with
  | Except.error e => Except.error e
  | Except.ok st => Except.ok ⟨reordered, st, facts⟩

/-- The `for s in range(max_stratum + 1)` loop of `Evaluator.evaluate`. -/
def runStrata (rules : List Rule) (strata : List (String × Nat)) : List Nat → Facts → Except String Facts
  | [], F => Except.ok F
  | s :: rest, F =>
    match evalStratum (rules.filter (fun r => strataGet strata r.head_pred == s)) MAX_STRATUM_ITERS F with
    | Except.error e => Except.error e
    | Except.ok F' => runStrata rules strata rest F'

/-- `Evaluator.evaluate`: saturate stratum by stratum; the result carries
the final fact store together with the evaluator as it stands afterwards
(the source mutates `self._facts` in place). -/
def Evaluator.evaluate (ev : Evaluator) : Except String (Facts × Evaluator) :=
  let maxS := (ev.strata.map Prod.snd).foldl Nat.max 0
  match runStrata ev.rules ev.strata (List.range (maxS + 1)) ev.facts with
  | Except.error e => Except.error e
  | Except.ok F => Except.ok (F, { ev with facts := F })

/-! ### Goal parser (`solver/loader.py`, `parse_goal`)

The source matches the stripped input against the regular expression
`^([a-z_][a-z0-9_]*)(?:\s*\(([^)]*)\))?\s*$` with `re.IGNORECASE`.  The
embedding works on character lists; the character classes below are the
ASCII fragments of Python's `str.strip()` / `\s` (they agree with Python on
every ASCII string, which is the scope of the parser theorems). -/

/-- ASCII whitespace as stripped by `str.strip()` and matched by `\s`:
space, 9–13 and 28–31. -/
def isSpaceC (c : Char) : Bool :=
  c.toNat = 32 ∨ (9 ≤ c.toNat ∧ c.toNat ≤ 13) ∨ (28 ≤ c.toNat ∧ c.toNat ≤ 31)

/-- First character of the goal-predicate regex, `[a-z_]` under
`re.IGNORECASE` (underscore is code point 95). -/
def isNameStartC (c : Char) : Bool :=
  (97 ≤ c.toNat ∧ c.toNat ≤ 122) ∨ (65 ≤ c.toNat ∧ c.toNat ≤ 90) ∨ c.toNat = 95

/-- Later characters of the goal-predicate regex, `[a-z0-9_]` under
`re.IGNORECASE`. -/
def isNameC (c : Char) : Bool :=
  isNameStartC c ∨ (48 ≤ c.toNat ∧ c.toNat ≤ 57)

def stripWS (l : List Char) : List Char := stripChars isSpaceC l

/-- One argument token: `a.strip().strip("\"'")`. -/
def parseToken (l : List Char) : String :=
  String.mk (stripChars isQuoteC (stripChars isSpaceC l))

/-- Python `str.split(",")`: split at every comma, keeping empty pieces. -/
def splitComma : List Char → List (List Char)
  | [] => [[]]
  | ',' :: rest => [] :: splitComma rest
  | c :: rest =>
    match splitComma rest with
    | [] => [[c]]
    | g :: gs => (c :: g) :: gs

/-- Argument list from the text between the parentheses: a whitespace-only
group yields zero arguments, otherwise split on commas and clean each
token. -/
def argsOfInner (inner : List Char) : List String :=
  if stripChars isSpaceC inner = [] then []
  else (splitComma inner).map parseToken

/-- Tail of the regex after the closing parenthesis candidate: the head of
`dropWhile (· ≠ ')')`, when it exists, is necessarily `)`, and only
whitespace may follow it (`\s*$`). -/
def parseClose (nm : String) (inner : List Char) : List Char → Option (String × List String)
  | [] => none
  | d :: r4 =>
    if d = ')' then (if r4.all isSpaceC then some (nm, argsOfInner inner) else none)
    else none

/-- The parenthesised group `\( [^)]* \)`. -/
def parseAfterParen (nm : String) (r3 : List Char) : Option (String × List String) :=
  parseClose nm (r3.takeWhile (fun x => x ≠ ')')) (r3.dropWhile (fun x => x ≠ ')'))

/-- After the name: either only whitespace remains, or `\s*\(...` opens the
optional argument group. -/
def parseAfterSpaces (nm : String) : List Char → Option (String × List String)
  | [] => some (nm, [])
  | c2 :: r3 => if c2 = '(' then parseAfterParen nm r3 else none

def parseAfterName (nm : String) (r1 : List Char) : Option (String × List String) :=
  parseAfterSpaces nm (r1.dropWhile isSpaceC)

/-- Deterministic rendering of the goal regex on the stripped input: the
predicate name is the maximal name-character run, then `parseAfterName`
handles the optional argument group and trailing whitespace. -/
def parseGoalCore : List Char → Option (String × List String)
  | [] => none
  | c :: rest =>
    if isNameStartC c then
      parseAfterName (String.mk (c :: rest.takeWhile isNameC)) (rest.dropWhile isNameC)
    else none

/-- `parse_goal` from `solver/loader.py`; `none` models the raised
`ValueError`. -/
def parse_goal (s : String) : Option (String × List String) :=
  parseGoalCore (stripWS s.toList)

/-! ### Rule validator (`validator/*.py`)

The validator consumes JSON objects.  The embedding types them: atoms reuse
`Atom`; numeric assumption fields are naturals, as required of the rule
JSON by the interface specification (`atom_index` 0-based, `arg_index`
1-based).  Error records keep the stable code and the JSON-pointer path;
the human message and fix strings of the source carry no information any
claim concerns. -/

inductive ErrorCode where
  | SCHEMA_VIOLATION
  | PRED_UNKNOWN
  | ARITY_MISMATCH
  | PRED_NOT_ALLOWED_IN_HEAD
  | PRED_NOT_ALLOWED_IN_BODY
  | NEGATION_NOT_ALLOWED_FOR_PRED
  | VAR_NAMING
  | ENUM_VALUE_INVALID
  | VAR_UNBOUND_HEAD
  | VAR_UNBOUND_NEGATED
  | CONSTRAINTS_NOT_EMPTY
  | PROVENANCE_EMPTY_UNIT
  | PROVENANCE_EMPTY_QUOTE
  | QUOTE_NOT_IN_SOURCE
  | ASSUMPTION_PRED_INVALID
  | ASSUMPTION_BAD_ATOM_INDEX
  | ASSUMPTION_BAD_ARG_INDEX
  | ASSUMPTION_CONST_MISMATCH
  | ASSUMPTION_REQUIRED_CW
deriving DecidableEq, Repr

structure VError where
  code : ErrorCode
  path : String
deriving DecidableEq, Repr

/-- Scoped assumption (`about.pred`, `type`, optional indices/constant). -/
structure Assumption where
  type : String
  aboutPred : String
  atomIndex : Option Nat
  argIndex : Option Nat
  const : Option String
deriving DecidableEq, Repr

structure Provenance where
  unit : List String
  quote : String
deriving DecidableEq, Repr

/-- Rule JSON after typing: `head` may be absent (the source guards with
`isinstance(head, dict)`), the other fields with defaults applied by the
normalizer. -/
structure RuleJ where
  head : Option Atom
  body : List Atom
  constraints : List String
  assumptions : List Assumption
  provenance : Option Provenance
deriving DecidableEq, Repr

structure VReport where
  is_valid : Bool
  errors : List VError
  warnings : List String
  normalized_rule : Option RuleJ
deriving DecidableEq, Repr

/-- Manifest predicate spec as read from JSON (`_build_entry`'s input):
`pred` may be overridden, `allowed_in` and `value_domain` are optional. -/
structure PredSpec where
  name : String
  arity : Nat
  predOverride : Option String
  io : String
  kind : String
  allowedIn : Option (Bool × Bool × Bool)
  valueDomain : Option (Nat × List String)
deriving DecidableEq, Repr

/-- Flattened manifest entry (`PredEntry` of `manifest_index.py`). -/
structure PredEntry where
  name : String
  arity : Nat
  pred : String
  io : String
  kind : String
  allowed_in_head : Bool
  allowed_in_body : Bool
  allowed_in_negated_body : Bool
  enum_arg_index : Option Nat
  allowed_values : Option (List String)
deriving DecidableEq, Repr

/-- `_default_allowed_in` from `manifest_index.py`. -/
def defaultAllowedIn (io : String) : Bool × Bool × Bool :=
  if io = "input" then (false, true, false)
  else if io = "derived" then (true, true, false)
  else (true, true, true)

/-- `_build_entry`: note `p.get("pred") or f"{name}/{arity}"` — an absent
or empty override falls back to `name/arity`. -/
def buildEntry (p : PredSpec) : PredEntry :=
  let defPred := p.name ++ "/" ++ toString p.arity
  let pr := match p.predOverride with
    | some s => if s = "" then defPred else s
    | none => defPred
  let ai := match p.allowedIn with
    | some t => t
    | none => defaultAllowedIn p.io
  let ei := match p.valueDomain with
    | some vd => some vd.1
    | none => none
  let av := match p.valueDomain with
    | some vd => some vd.2
    | none => none
  ⟨p.name, p.arity, pr, p.io, p.kind, ai.1, ai.2.1, ai.2.2, ei, av⟩

/-- `ManifestIndex`: policy plus the entry dictionaries. -/
structure ManifestIndex where
  whitelist_mode : String
  naf_closed_world : List String
  entries : List PredEntry
deriving DecidableEq, Repr

def mkManifestIndex (wm : String) (cw : List String) (specs : List PredSpec) : ManifestIndex :=
  ⟨wm, cw, specs.map buildEntry⟩

/-- `lookup_by_name`: dictionary keyed by name, later entries overwrite. -/
def lookupByName (idx : ManifestIndex) (nm : String) : Option PredEntry :=
  idx.entries.reverse.find? (fun e => e.name = nm)

/-- `lookup_by_pred`: dictionary keyed by the entry's `pred` string. -/
def lookupByPred (idx : ManifestIndex) (pr : String) : Option PredEntry :=
  idx.entries.reverse.find? (fun e => e.pred = pr)

/-- `is_naf_closed_world`. -/
def isNafCW (idx : ManifestIndex) (pr : String) : Bool :=
  idx.naf_closed_world.contains pr

/-- `MAX_ERRORS` from `rule_validator.py`. -/
def MAX_ERRORS : Nat := 20

/-- `normalize_rule` on the typed rule: the `negated`/`constraints`/
`assumptions` defaults are already materialised by the typing; the
provenance quote is trimmed. -/
def trimQuoteProv (pv : Provenance) : Provenance :=
  { pv with quote := String.mk (stripChars isSpaceC pv.quote.toList) }

def normalizeRule (r : RuleJ) : RuleJ :=
  { r with provenance := r.provenance.map trimQuoteProv }

/-- `_VAR_RE`: `^\?[A-Za-z][A-Za-z0-9_]*$`. -/
def isAsciiAlphaC (c : Char) : Bool :=
  (97 ≤ c.toNat ∧ c.toNat ≤ 122) ∨ (65 ≤ c.toNat ∧ c.toNat ≤ 90)

def isAlnumUC (c : Char) : Bool :=
  isAsciiAlphaC c ∨ (48 ≤ c.toNat ∧ c.toNat ≤ 57) ∨ c.toNat = 95

def varNameOk (s : String) : Bool :=
  match s.toList with
  | '?' :: c :: rest => isAsciiAlphaC c && rest.all isAlnumUC
  | _ => false

/-- `_check_atom` from `rule_validator.py`. -/
def checkAtom (idx : ManifestIndex) (a : Atom) (path : String) (inHead : Bool) : List VError :=
  match lookupByName idx a.pred with
  | none => [⟨ErrorCode.PRED_UNKNOWN, path ++ "/pred"⟩]
  | some entry =>
    (if a.args.length ≠ entry.arity then [⟨ErrorCode.ARITY_MISMATCH, path ++ "/args"⟩] else [])
    ++ (if inHead then
          if ¬ entry.allowed_in_head then [⟨ErrorCode.PRED_NOT_ALLOWED_IN_HEAD, path ++ "/pred"⟩] else []
        else if a.negated then
          if ¬ entry.allowed_in_negated_body ∧ ¬ isNafCW idx entry.pred then
            [⟨ErrorCode.NEGATION_NOT_ALLOWED_FOR_PRED, path ++ "/pred"⟩]
          else []
        else
          if ¬ entry.allowed_in_body then [⟨ErrorCode.PRED_NOT_ALLOWED_IN_BODY, path ++ "/pred"⟩] else [])

/-- Stage B (`_stage_predicates`). -/
def stagePredicates (idx : ManifestIndex) (r : RuleJ) : List VError :=
  (match r.head with
   | some h => checkAtom idx h "/head" true
   | none => [])
  ++ r.body.enum.flatMap (fun ia => checkAtom idx ia.2 ("/body/" ++ toString ia.1) false)

/-- `_check_enum_args`: `enum_arg_index` and `allowed_values` are set
together by `_build_entry`, so matching on both mirrors the source's
`allowed_values is None` guard. -/
def checkEnumArgs (idx : ManifestIndex) (a : Atom) (path : String) : List VError :=
  match lookupByName idx a.pred with
  | none => []
  | some entry =>
    match entry.allowed_values, entry.enum_arg_index with
    | some vals, some ei =>
      let k := ei - 1
      match a.args.get? k with
      | some arg =>
        if ¬ isVarT arg ∧ ¬ vals.contains arg then
          [⟨ErrorCode.ENUM_VALUE_INVALID, path ++ "/args/" ++ toString k⟩]
        else []
      | none => []
    | _, _ => []

/-- Stage C (`_stage_enums`). -/
def stageEnums (idx : ManifestIndex) (r : RuleJ) : List VError :=
  (match r.head with
   | some h => checkEnumArgs idx h "/head"
   | none => [])
  ++ r.body.enum.flatMap (fun ia => checkEnumArgs idx ia.2 ("/body/" ++ toString ia.1))

/-- Stage D (`_stage_safety`): range restriction, NAF safety, variable
naming, plus the non-empty-constraints warning. -/
def stageSafety (r : RuleJ) : List VError × List String :=
  let headArgs := match r.head with
    | some h => h.args
    | none => []
  let posVars := r.body.flatMap (fun a => if a.negated then [] else a.args.filter isVarT)
  let e1 := headArgs.flatMap (fun arg =>
    if isVarT arg ∧ ¬ posVars.contains arg then [⟨ErrorCode.VAR_UNBOUND_HEAD, "/head/args"⟩] else [])
  let e2 := r.body.enum.flatMap (fun ia =>
    if ia.2.negated then
      ia.2.args.flatMap (fun arg =>
        if isVarT arg ∧ ¬ posVars.contains arg then
          [⟨ErrorCode.VAR_UNBOUND_NEGATED, "/body/" ++ toString ia.1⟩]
        else [])
    else [])
  let e3 := headArgs.flatMap (fun arg =>
    if isVarT arg ∧ ¬ varNameOk arg then [⟨ErrorCode.VAR_NAMING, "/head/args"⟩] else [])
  let e4 := r.body.enum.flatMap (fun ia =>
    ia.2.args.flatMap (fun arg =>
      if isVarT arg ∧ ¬ varNameOk arg then
        [⟨ErrorCode.VAR_NAMING, "/body/" ++ toString ia.1 ++ "/args"⟩]
      else []))
  let w := if r.constraints ≠ [] then ["non-Horn constraints present"] else []
  (e1 ++ e2 ++ e3 ++ e4, w)

/-- Words of a string for whitespace normalisation (`s.split()`); the fuel
is the string length, which the strictly consuming loop cannot exhaust. -/
def wordsAux : Nat → List Char → List (List Char)
  | 0, _ => []
  | _ + 1, [] => []
  | fuel + 1, c :: rest =>
    if isSpaceC c then wordsAux fuel rest
    else (c :: rest.takeWhile (fun x => !isSpaceC x)) :: wordsAux fuel (rest.dropWhile (fun x => !isSpaceC x))

def joinSpace : List (List Char) → List Char
  | [] => []
  | [w] => w
  | w :: ws => w ++ ' ' :: joinSpace ws

/-- `_normalize_ws`: `" ".join(s.split())`. -/
def normWs (s : String) : List Char :=
  joinSpace (wordsAux s.toList.length s.toList)

def listPre : List Char → List Char → Bool
  | [], _ => true
  | _ :: _, [] => false
  | c :: cs, d :: ds => c = d && listPre cs ds

/-- Substring test (Python `in` on strings). -/
def subIn (needle : List Char) : List Char → Bool
  | [] => listPre needle []
  | d :: rest => listPre needle (d :: rest) || subIn needle rest

/-- Stage E (`_stage_provenance`): note `elif source_text:` — an empty
source string behaves like an absent one. -/
def stageProvenance (r : RuleJ) (sourceText : Option String) : List VError :=
  match r.provenance with
  | none => []
  | some pv =>
    (if pv.unit = [] then [⟨ErrorCode.PROVENANCE_EMPTY_UNIT, "/provenance/unit"⟩] else [])
    ++ (if stripChars isSpaceC pv.quote.toList = [] then
          [⟨ErrorCode.PROVENANCE_EMPTY_QUOTE, "/provenance/quote"⟩]
        else match sourceText with
          | some src =>
            if src = "" then []
            else if ¬ (subIn (normWs pv.quote) (normWs src) = true) then
              [⟨ErrorCode.QUOTE_NOT_IN_SOURCE, "/provenance/quote"⟩]
            else []
          | none => [])

/-- `_check_assumption` from `rule_validator.py`. -/
def checkAssumption (idx : ManifestIndex) (a : Assumption) (aIdx : Nat) (body : List Atom) : List VError :=
  let predStr := a.aboutPred
  let entry : Option PredEntry :=
    match lookupByPred idx predStr with
    | some e => some e
    | none =>
      if predStr.toList.contains '/' then
        lookupByName idx (String.mk (predStr.toList.takeWhile (fun c => c ≠ '/')))
      else none
  match entry with
  | none => [⟨ErrorCode.ASSUMPTION_PRED_INVALID, "/assumptions/" ++ toString aIdx ++ "/about/pred"⟩]
  | some e =>
    match a.atomIndex with
    | none => []
    | some ai =>
      if ai ≥ body.length then
        [⟨ErrorCode.ASSUMPTION_BAD_ATOM_INDEX, "/assumptions/" ++ toString aIdx ++ "/about/atom_index"⟩]
      else match a.argIndex with
        | none => []
        | some gi =>
          if gi < 1 ∨ gi > e.arity then
            [⟨ErrorCode.ASSUMPTION_BAD_ARG_INDEX, "/assumptions/" ++ toString aIdx ++ "/about/arg_index"⟩]
          else match a.const with
            | none => []
            | some cst =>
              match body.get? ai with
              | some refAtom =>
                match refAtom.args.get? (gi - 1) with
                | some actual =>
                  if ¬ isVarT actual ∧ actual ≠ cst then
                    [⟨ErrorCode.ASSUMPTION_CONST_MISMATCH, "/assumptions/" ++ toString aIdx ++ "/about/const"⟩]
                  else []
                | none => []
              | none => []

def dedupStr (l : List String) : List String := l.foldl insertNew []

/-- Stage F (`_stage_assumptions`): per-assumption checks, then the
closed-world enforcement over the sorted set of negated closed-world
predicates not covered by a `closed_world` assumption. -/
def stageAssumptions (idx : ManifestIndex) (r : RuleJ) : List VError :=
  let negatedCW := r.body.flatMap (fun a =>
    if a.negated then
      match lookupByName idx a.pred with
      | some e => if isNafCW idx e.pred then [e.pred] else []
      | none => []
    else [])
  let cwCovered := r.assumptions.flatMap (fun a =>
    if a.type = "closed_world" then [a.aboutPred] else [])
  let checkErrs := r.assumptions.enum.flatMap (fun ia => checkAssumption idx ia.2 ia.1 r.body)
  let enforce := (insSort (dedupStr negatedCW)).flatMap (fun pr =>
    if ¬ cwCovered.contains pr then [⟨ErrorCode.ASSUMPTION_REQUIRED_CW, "/assumptions"⟩] else [])
  checkErrs ++ enforce

/-- Errors accumulated after stages B and C: stage C runs only if stage B
left fewer than `MAX_ERRORS` errors. -/
def errsThroughC (idx : ManifestIndex) (nr : RuleJ) : List VError :=
  stagePredicates idx nr
    ++ (if (stagePredicates idx nr).length < MAX_ERRORS then stageEnums idx nr else [])

/-- Errors accumulated after stage D. -/
def errsThroughD (idx : ManifestIndex) (nr : RuleJ) : List VError :=
  errsThroughC idx nr
    ++ (if (errsThroughC idx nr).length < MAX_ERRORS then (stageSafety nr).1 else [])

/-- Errors accumulated after stage E. -/
def errsThroughE (idx : ManifestIndex) (nr : RuleJ) (sourceText : Option String) : List VError :=
  errsThroughD idx nr
    ++ (if (errsThroughD idx nr).length < MAX_ERRORS then stageProvenance nr sourceText else [])

/-- Stages B–F of `RuleValidator.validate`: every stage after B runs only
while fewer than `MAX_ERRORS` errors have accumulated. -/
def validateStages (idx : ManifestIndex) (ruleJ : RuleJ) (sourceText : Option String) : VReport :=
  let nr := normalizeRule ruleJ
  let e4 := errsThroughE idx nr sourceText
  let e5 := e4 ++ (if e4.length < MAX_ERRORS then stageAssumptions idx nr else [])
  let w := if (errsThroughC idx nr).length < MAX_ERRORS then (stageSafety nr).2 else []
  ⟨e5.isEmpty, e5, w, some nr⟩

/-- The closed-world obligation of claim C5, phrased on the rule: some
negated body atom resolves to a manifest entry whose `name/arity` is in
the closed-world set, and no assumption of type `closed_world` has that
`name/arity` as its `about.pred`. -/
def CWObligation (idx : ManifestIndex) (r : RuleJ) : Prop :=
  ∃ a ∈ r.body, a.negated = true ∧
    ∃ e, lookupByName idx a.pred = some e ∧
      isNafCW idx (e.name ++ "/" ++ toString e.arity) = true ∧
      ¬ ∃ x ∈ r.assumptions, x.type = "closed_world" ∧
        x.aboutPred = e.name ++ "/" ++ toString e.arity

/-- `RuleValidator.validate`.  The external `jsonschema` library backing
stage A is a collaborator outside `src/`; its outcome enters as a
parameter: `none` models a validator constructed without a schema, `some
es` the error list `iter_errors` produced.  A non-empty stage A outcome
short-circuits stages B–F, exactly as in the source. -/
def validate (idx : ManifestIndex) (schemaErrs : Option (List VError)) (ruleJ : RuleJ) (sourceText : Option String) : VReport :=
  match schemaErrs with
  | some es =>
    if es ≠ [] then ⟨false, es, [], none⟩
    else validateStages idx ruleJ sourceText
  | none => validateStages idx ruleJ sourceText

/-! ### Specification-side predicates

The definitions below state, in the spec's vocabulary, the properties the
claims assert about the embedded functions.  They are used only in theorem
statements and proofs. -/

/-- The predicate dependency graph of a rule set: `p` depends on `q`
positively when some rule with head `p` has a positive non-builtin body
atom `q`. -/
def posEdge (rules : List Rule) (p q : String) : Prop := q ∈ posDepsOf rules p

/-- Negative dependency: some rule with head `p` has a negated non-builtin
body atom `q`. -/
def negEdge (rules : List Rule) (p q : String) : Prop := q ∈ negDepsOf rules p

/-- Any dependency edge. -/
def depEdge (rules : List Rule) (p q : String) : Prop := q ∈ allDepsOf rules p

/-- Reachability through any dependency edges (zero or more steps). -/
def Reaches (rules : List Rule) : String → String → Prop :=
  Relation.ReflTransGen (depEdge rules)

/-- A cycle of the dependency graph containing a negative edge: an edge
`p —neg→ q` that can be closed back from `q` to `p` through any edges.
This is the claim's notion of a non-stratifiable rule set. -/
def HasNegCycle (rules : List Rule) : Prop :=
  ∃ p q, negEdge rules p q ∧ Reaches rules q p

/-- Stratum lookup in the association list returned by `compute_strata`. -/
def stratumVal (st : List (String × Nat)) (p : String) : Nat := strataGet st p

/-- Containment of fact stores: every stored tuple of `S` is stored in `F`. -/
def FactsSub (S F : Facts) : Prop := ∀ p t, t ∈ fGet S p → t ∈ fGet F p

/-- A tuple is ground when no argument is a variable. -/
def TupleGround (t : List String) : Prop := t.any isVarT = false

/-- Every tuple stored anywhere in the store is ground. -/
def FactsGround (F : Facts) : Prop := ∀ p t, t ∈ fGet F p → TupleGround t

/-- Decidable groundness of a concrete store (for witnesses). -/
def factsGroundB (F : Facts) : Bool :=
  F.all (fun kv => kv.2.all (fun t => !t.any isVarT))

/-- Claim C3's trigger condition: a `meets_condition` atom with exactly two
arguments whose quoted-stripped condition id names a known condition. -/
def mcTriggers (conds : Conds) (a : Atom) : Prop :=
  a.pred = "meets_condition" ∧
    ∃ e cid, a.args = [e, cid] ∧ (condLookup conds (stripQuotes cid)).isSome = true

/-- Claim C3's freshening of one condition atom for expansion number `k`:
constants unchanged, the entity variable replaced by the call-site entity
argument, every other variable suffixed with the marker of expansion `k`. -/
def specFreshAtom (ev e : String) (k : Nat) (a : Atom) : Atom :=
  Atom.mk a.pred
    (a.args.map (fun arg =>
      if isVarT arg then (if arg = ev then e else arg ++ "_mc" ++ toString k) else arg))
    a.negated

/-- Claim C3 as a relation on rule bodies, threading the per-call expansion
counter: triggered atoms are replaced in place by the freshened required
facts of their condition (each expansion drawing a fresh counter value,
which makes its marker unique); all other atoms — in particular
`meets_condition` atoms with an unknown condition id — are left untouched. -/
inductive BodyExpands (conds : Conds) : Nat → List Atom → List Atom → Nat → Prop where
  | nil (c : Nat) : BodyExpands conds c [] [] c
  | keep (c : Nat) (a : Atom) (rest out : List Atom) (c' : Nat)
      (hk : ¬ mcTriggers conds a)
      (ih : BodyExpands conds c rest out c') :
      BodyExpands conds c (a :: rest) (a :: out) c'
  | expandVar (c : Nat) (e cid : String) (ng : Bool) (req : List Atom) (ev : String)
      (rest out : List Atom) (c' : Nat)
      (hr : condLookup conds (stripQuotes cid) = some req)
      (hev : firstVar req = some ev)
      (ih : BodyExpands conds (c + 1) rest out c') :
      BodyExpands conds c (Atom.mk "meets_condition" [e, cid] ng :: rest)
        (req.map (specFreshAtom ev e c) ++ out) c'
  | expandNoVar (c : Nat) (e cid : String) (ng : Bool) (req : List Atom)
      (rest out : List Atom) (c' : Nat)
      (hr : condLookup conds (stripQuotes cid) = some req)
      (hev : firstVar req = none)
      (ih : BodyExpands conds (c + 1) rest out c') :
      BodyExpands conds c (Atom.mk "meets_condition" [e, cid] ng :: rest) (req ++ out) c'

/-- Claim C3 lifted to rule lists: bodies are rewritten with the counter
threaded across the whole call, and each rule keeps its `rule_id`,
`fragment_id`, head predicate and head arguments. -/
inductive RulesExpand (conds : Conds) : Nat → List Rule → List Rule → Nat → Prop where
  | nil (c : Nat) : RulesExpand conds c [] [] c
  | cons (c c₁ c₂ : Nat) (r : Rule) (b : List Atom) (rs out : List Rule)
      (hb : BodyExpands conds c r.body b c₁)
      (ih : RulesExpand conds c₁ rs out c₂) :
      RulesExpand conds c (r :: rs) ({ r with body := b } :: out) c₂

/-- Character class of the goal-name rule as the claim states it: a
lowercase letter. -/
def isLowerC (c : Char) : Bool := 97 ≤ c.toNat ∧ c.toNat ≤ 122

/-- Name characters as the claim states them: lowercase letters, digits,
underscores. -/
def isClaimNameC (c : Char) : Bool :=
  isLowerC c ∨ (48 ≤ c.toNat ∧ c.toNat ≤ 57) ∨ c.toNat = 95

/-- The acceptance set claim C7 asserts for `parse_goal`: the raw input
matches `^pred(?:\((args)?\))?$` with a lowercase-initial predicate name
and no whitespace tolerance. -/
def ClaimGoalShape (s : String) : Prop :=
  ∃ c cs rest, s.toList = c :: (cs ++ rest) ∧ isLowerC c = true ∧ cs.all isClaimNameC = true ∧
    (rest = [] ∨ ∃ inner, rest = '(' :: (inner ++ [')']) ∧ inner.all (fun x => x ≠ ')') = true)

/-- The acceptance set and output `parse_goal` actually realises (the
amended claim): after stripping surrounding whitespace the input is a name
in `[a-zA-Z_][a-zA-Z0-9_]*`, optionally followed by whitespace and a
parenthesised run of non-`)` characters; the arguments are the
comma-separated tokens of that run, whitespace-trimmed and quote-stripped,
a whitespace-only run meaning zero arguments. -/
def GoalShape (s : String) (nm : String) (args : List String) : Prop :=
  ∃ c cs rest, stripWS s.toList = c :: (cs ++ rest) ∧
    isNameStartC c = true ∧ cs.all isNameC = true ∧
    nm = String.mk (c :: cs) ∧
    ((rest = [] ∧ args = []) ∨
      (∃ ws inner, rest = ws ++ '(' :: (inner ++ [')']) ∧
        ws.all isSpaceC = true ∧ inner.all (fun x => x ≠ ')') = true ∧
        args = argsOfInner inner))

/-- Potential of a DFS state: one unit per stack entry plus, for every
unvisited predicate, one unit per successor and one for the visit itself.
Every DFS step strictly decreases it, so it bounds the fuel `dfsVisit`
needs. -/
def dfsPot (deps : String → List String) (preds stack vis : List String) : Nat :=
  stack.length +
    ((preds.filter (fun p => decide (p ∉ vis))).map (fun p => (deps p).length + 1)).sum

/-- Predicates with at least one negative dependency that are reachable
from `p`: the strata of the Gauss–Seidel iteration never exceed the
cardinality of this set (when no negative cycle exists), which yields the
convergence bound of `compute_strata`. -/
def NRset (rules : List Rule) (p : String) : Finset String :=
  ((rulePreds rules).filter
    (fun x => decide (x ∈ reachableFrom rules p ∧ negDepsOf rules x ≠ []))).toFinset

/-! ## Theorems -/

/-! ### Body reordering (claim C8) -/

theorem reorder_groups_perm (body : List Atom) : (safeReorderBody body).Perm body := by
  have hA : ((body.filter fun a => !a.negated && !isBuiltinPred a.pred)
      ++ (body.filter fun a => !a.negated && isBuiltinPred a.pred)).Perm
      (body.filter fun a => !a.negated) := by
    have h := List.filter_append_perm (fun a : Atom => !isBuiltinPred a.pred)
      (body.filter fun a => !a.negated)
    simpa [List.filter_filter, Bool.not_not, Bool.and_comm] using h
  have hB : ((body.filter fun a => !a.negated) ++ (body.filter fun a => a.negated)).Perm body := by
    have h := List.filter_append_perm (fun a : Atom => !a.negated) body
    simpa [Bool.not_not] using h
  have heq : safeReorderBody body
      = ((body.filter fun a => !a.negated && !isBuiltinPred a.pred)
          ++ (body.filter fun a => !a.negated && isBuiltinPred a.pred))
          ++ (body.filter fun a => a.negated) := by
    simp [safeReorderBody, List.append_assoc]
  rw [heq]
  exact (hA.append_right _).trans hB

/-- Claim C8: `_safe_reorder_body` returns a permutation of the body in
which all positive non-builtin atoms come first, then the non-negated
builtin atoms, then the negated atoms, each group keeping the relative
order of the input body (each group is literally a filter of the body). -/
theorem c8_reorder (body : List Atom) :
    (safeReorderBody body).Perm body ∧
    safeReorderBody body =
      body.filter (fun a => !a.negated && !isBuiltinPred a.pred)
        ++ body.filter (fun a => !a.negated && isBuiltinPred a.pred)
        ++ body.filter (fun a => a.negated) :=
  ⟨reorder_groups_perm body, rfl⟩

/-! ### Condition expansion (claim C3) -/

theorem freshArg_eq (ev e : String) (c : Nat) (arg : String) :
    freshArg ev e c arg =
      if isVarT arg then (if arg = ev then e else arg ++ "_mc" ++ toString c) else arg := by
  by_cases h : isVarT arg <;> simp [freshArg, h]

theorem freshen_eq (req : List Atom) (ev e : String) (c : Nat) :
    freshen req ev e c = req.map (specFreshAtom ev e c) := by
  unfold freshen specFreshAtom
  apply List.map_congr_left
  intro a _
  cases a with
  | mk p args ng =>
    have hm : List.map (freshArg ev e c) args =
        List.map (fun arg =>
          if isVarT arg then (if arg = ev then e else arg ++ "_mc" ++ toString c) else arg) args :=
      List.map_congr_left (fun x _ => freshArg_eq ev e c x)
    simp [hm]

theorem expandBody_spec (conds : Conds) : ∀ (body : List Atom) (c : Nat),
    BodyExpands conds c body (expandBody conds body c).1 (expandBody conds body c).2
  | [], c => BodyExpands.nil c
  | a :: rest, c => by
    cases a with
    | mk ap aa an =>
      by_cases hp : ap = "meets_condition"
      · subst hp
        match aa with
        | [e, cid] =>
          cases hlook : condLookup conds (stripQuotes cid) with
          | some req =>
            cases hev : firstVar req with
            | some ev =>
              have ih := expandBody_spec conds rest (c + 1)
              simp only [expandBody, hlook, hev, if_pos rfl, freshen_eq]
              exact BodyExpands.expandVar c e cid an req ev _ _ _ hlook hev ih
            | none =>
              have ih := expandBody_spec conds rest (c + 1)
              simp only [expandBody, hlook, hev, if_pos rfl]
              exact BodyExpands.expandNoVar c e cid an req _ _ _ hlook hev ih
          | none =>
            have ih := expandBody_spec conds rest c
            simp only [expandBody, hlook, if_pos rfl]
            refine BodyExpands.keep c _ _ _ _ ?_ ih
            rintro ⟨-, e', cid', hargs, hsome⟩
            cases hargs
            simp [hlook] at hsome
        | [] =>
          have ih := expandBody_spec conds rest c
          simp only [expandBody, if_pos rfl]
          refine BodyExpands.keep c _ _ _ _ ?_ ih
          rintro ⟨-, e', cid', hargs, -⟩
          cases hargs
        | [x] =>
          have ih := expandBody_spec conds rest c
          simp only [expandBody, if_pos rfl]
          refine BodyExpands.keep c _ _ _ _ ?_ ih
          rintro ⟨-, e', cid', hargs, -⟩
          cases hargs
        | x :: y :: z :: w =>
          have ih := expandBody_spec conds rest c
          simp only [expandBody, if_pos rfl]
          refine BodyExpands.keep c _ _ _ _ ?_ ih
          rintro ⟨-, e', cid', hargs, -⟩
          cases hargs
      · have ih := expandBody_spec conds rest c
        simp only [expandBody, if_neg hp]
        refine BodyExpands.keep c _ _ _ _ ?_ ih
        rintro ⟨hpred, -⟩
        exact hp hpred

theorem expandRulesAux_spec (conds : Conds) : ∀ (rules : List Rule) (c : Nat),
    ∃ cF, RulesExpand conds c rules (expandRulesAux conds rules c) cF
  | [], c => ⟨c, RulesExpand.nil c⟩
  | r :: rest, c => by
    obtain ⟨cF, hrest⟩ := expandRulesAux_spec conds rest (expandBody conds r.body c).2
    exact ⟨cF, RulesExpand.cons c _ cF r _ rest _ (expandBody_spec conds r.body c) hrest⟩

/-- Claim C3: `expand_meets_condition` rewrites every rule body according
to the expansion relation `RulesExpand` started at counter 0 — every
2-argument `meets_condition` atom with a known (quote-stripped) condition
id is replaced in place by the condition's required facts, the first
variable of those facts (in atom order) substituted by the call-site
entity argument and every other variable suffixed with the marker of that
expansion's unique counter value; unknown condition ids leave the atom
untouched, and every rule keeps its `rule_id`, `fragment_id` and head. -/
theorem c3_expand (conds : Conds) (rules : List Rule) :
    ∃ cF, RulesExpand conds 0 rules (expand_meets_condition rules conds) cF :=
  expandRulesAux_spec conds rules 0

/-! ### Fact-store lemmas (claims C2, C9, C10) -/

theorem fGet_fAdd (F : Facts) (p : String) (t : List String) (p' : String) :
    fGet (fAdd F p t) p' =
      if p' = p then (if t ∈ fGet F p then fGet F p else fGet F p ++ [t])
      else fGet F p' := by
  induction F with
  | nil =>
    simp only [fAdd, fGet]
    by_cases hp : p = p'
    · subst hp
      simp
    · have hp' : ¬ p' = p := fun h => hp h.symm
      simp [hp, hp']
  | cons kv rest ih =>
    obtain ⟨k, v⟩ := kv
    simp only [fAdd]
    by_cases hk : k = p
    · simp only [if_pos hk]
      by_cases hk2 : k = p'
      · have hpp : p' = p := hk2.symm.trans hk
        simp only [fGet, if_pos hk2, if_pos hpp, if_pos hk]
      · have hpp : ¬ p' = p := fun h => hk2 (hk.trans h.symm)
        simp only [fGet, if_neg hk2, if_neg hpp]
    · simp only [if_neg hk]
      by_cases hk2 : k = p'
      · have hpp : ¬ p' = p := fun h => hk (hk2.trans h)
        simp only [fGet, if_pos hk2, if_neg hpp]
      · simp only [fGet, if_neg hk2, if_neg hk, ih]

theorem mem_fGet_fAdd_of_mem {F : Facts} {p : String} {t : List String}
    {p' : String} {t' : List String} (h : t' ∈ fGet F p') :
    t' ∈ fGet (fAdd F p t) p' := by
  rw [fGet_fAdd]
  by_cases hp : p' = p
  · subst hp
    rw [if_pos rfl]
    by_cases hm : t ∈ fGet F p'
    · rw [if_pos hm]; exact h
    · rw [if_neg hm]
      exact List.mem_append.mpr (Or.inl h)
  · rw [if_neg hp]; exact h

theorem mem_fGet_fAdd_cases {F : Facts} {p : String} {t : List String}
    {p' : String} {t' : List String} (h : t' ∈ fGet (fAdd F p t) p') :
    t' ∈ fGet F p' ∨ (p' = p ∧ t' = t) := by
  rw [fGet_fAdd] at h
  by_cases hp : p' = p
  · rw [if_pos hp] at h
    by_cases hm : t ∈ fGet F p
    · rw [if_pos hm] at h
      rw [hp]
      exact Or.inl h
    · rw [if_neg hm] at h
      rcases List.mem_append.mp h with h' | h'
      · rw [hp]; exact Or.inl h'
      · simp at h'
        exact Or.inr ⟨hp, h'⟩
  · rw [if_neg hp] at h
    exact Or.inl h

theorem factsSub_refl (F : Facts) : FactsSub F F := fun _ _ h => h

theorem factsSub_trans {F G H : Facts} (h1 : FactsSub F G) (h2 : FactsSub G H) :
    FactsSub F H := fun p t h => h2 p t (h1 p t h)

theorem factsSub_fAdd (F : Facts) (p : String) (t : List String) :
    FactsSub F (fAdd F p t) := fun _ _ h => mem_fGet_fAdd_of_mem h

theorem applySubsts_sub {r : Rule} : ∀ {subs : List Sub} {F : Facts} {ch : Bool}
    {F' : Facts} {ch' : Bool},
    applySubsts r subs F ch = Except.ok (F', ch') → FactsSub F F'
  | [], F, ch, F', ch', h => by
    simp [applySubsts] at h
    rw [h.1]
    exact factsSub_refl F'
  | s :: rest, F, ch, F', ch', h => by
    unfold applySubsts at h
    by_cases h1 : (applyArgs r.head_args s).any isVarT
    · rw [if_pos h1] at h
      exact applySubsts_sub h
    · rw [if_neg h1] at h
      by_cases h2 : applyArgs r.head_args s ∈ fGet F r.head_pred
      · rw [if_pos h2] at h
        exact applySubsts_sub h
      · rw [if_neg h2] at h
        by_cases h3 : r.head_pred ∈ rulePosPreds r
        · rw [if_pos h3] at h
          exact absurd h (by simp)
        · rw [if_neg h3] at h
          exact factsSub_trans (factsSub_fAdd F r.head_pred _) (applySubsts_sub h)

theorem evalPass_sub : ∀ {rules : List Rule} {F : Facts} {ch : Bool}
    {F' : Facts} {ch' : Bool},
    evalPass rules F ch = Except.ok (F', ch') → FactsSub F F'
  | [], F, ch, F', ch', h => by
    simp [evalPass] at h
    rw [h.1]
    exact factsSub_refl F'
  | r :: rest, F, ch, F', ch', h => by
    unfold evalPass at h
    cases hap : applySubsts r (matchBody F r.body []) F ch with
    | error e => rw [hap] at h; exact absurd h (by simp)
    | ok s =>
      rw [hap] at h
      exact factsSub_trans (applySubsts_sub hap) (evalPass_sub h)

theorem evalStratum_sub : ∀ {rules : List Rule} {fuel : Nat} {F F' : Facts},
    evalStratum rules fuel F = Except.ok F' → FactsSub F F'
  | rules, 0, F, F', h => by simp [evalStratum] at h
  | rules, fuel + 1, F, F', h => by
    unfold evalStratum at h
    cases hp : evalPass rules F false with
    | error e => rw [hp] at h; exact absurd h (by simp)
    | ok s =>
      obtain ⟨F1, ch⟩ := s
      rw [hp] at h
      cases ch with
      | true =>
        simp at h
        exact factsSub_trans (evalPass_sub hp) (evalStratum_sub h)
      | false =>
        simp at h
        rw [← h]
        exact evalPass_sub hp

theorem runStrata_sub {rules : List Rule} {strata : List (String × Nat)} :
    ∀ {ss : List Nat} {F F' : Facts},
    runStrata rules strata ss F = Except.ok F' → FactsSub F F'
  | [], F, F', h => by
    simp [runStrata] at h
    rw [h]
    exact factsSub_refl F'
  | s :: rest, F, F', h => by
    unfold runStrata at h
    cases hs : evalStratum (rules.filter (fun r => strataGet strata r.head_pred == s)) MAX_STRATUM_ITERS F with
    | error e => rw [hs] at h; exact absurd h (by simp)
    | ok F1 =>
      rw [hs] at h
      exact factsSub_trans (evalStratum_sub hs) (runStrata_sub h)

theorem evaluate_sub {ev : Evaluator} {F : Facts} {ev' : Evaluator}
    (h : ev.evaluate = Except.ok (F, ev')) : FactsSub ev.facts F := by
  unfold Evaluator.evaluate at h
  dsimp only at h
  cases hr : runStrata ev.rules ev.strata
      (List.range ((ev.strata.map Prod.snd).foldl Nat.max 0 + 1)) ev.facts with
  | error e => rw [hr] at h; exact absurd h (by simp)
  | ok F1 =>
    rw [hr] at h
    simp at h
    rw [← h.1]
    exact runStrata_sub hr

theorem mkEvaluator_ok {rules : List Rule} {S : Facts} {conds : Conds} {ev : Evaluator}
    (h : mkEvaluator rules S conds = Except.ok ev) :
    ev.rules = (expand_meets_condition rules conds).map
        (fun r => { r with body := safeReorderBody r.body }) ∧
    compute_strata ev.rules = Except.ok ev.strata ∧
    ev.facts = S := by
  unfold mkEvaluator at h
  dsimp only at h
  cases hc : compute_strata ((expand_meets_condition rules conds).map
      (fun r => { r with body := safeReorderBody r.body })) with
  | error e => rw [hc] at h; exact absurd h (by simp)
  | ok st =>
    rw [hc] at h
    simp at h
    rw [← h]
    exact ⟨rfl, hc, rfl⟩

/-- Claim C2: for every successfully constructed evaluator, a successful
`evaluate()` returns a fact store containing every fact of the initial
store (facts are only inserted, never retracted). -/
theorem c2_monotone (rules : List Rule) (S : Facts) (conds : Conds)
    (ev : Evaluator) (F : Facts) (ev' : Evaluator)
    (hmk : mkEvaluator rules S conds = Except.ok ev)
    (hev : ev.evaluate = Except.ok (F, ev')) :
    FactsSub S F := by
  have hf := (mkEvaluator_ok hmk).2.2
  have := evaluate_sub hev
  rw [hf] at this
  exact this

/-- Witness for C2 at a concrete run: a single rule deriving `q(a)` from
`p(a)`. -/
theorem c2_monotone_witness :
    mkEvaluator [⟨"r", "f", "q", ["?X"], [⟨"p", ["?X"], false⟩]⟩] [("p", [["a"]])] []
      = Except.ok ⟨[⟨"r", "f", "q", ["?X"], [⟨"p", ["?X"], false⟩]⟩], [("q", 0), ("p", 0)], [("p", [["a"]])]⟩ ∧
    FactsSub [("p", [["a"]])] [("p", [["a"]]), ("q", [["a"]])] :=
  ⟨rfl,
    c2_monotone [⟨"r", "f", "q", ["?X"], [⟨"p", ["?X"], false⟩]⟩] [("p", [["a"]])] []
      ⟨[⟨"r", "f", "q", ["?X"], [⟨"p", ["?X"], false⟩]⟩], [("q", 0), ("p", 0)], [("p", [["a"]])]⟩
      [("p", [["a"]]), ("q", [["a"]])]
      ⟨[⟨"r", "f", "q", ["?X"], [⟨"p", ["?X"], false⟩]⟩], [("q", 0), ("p", 0)], [("p", [["a"]]), ("q", [["a"]])]⟩
      rfl rfl⟩

/-! ### Groundness (claim C10) -/

theorem factsGround_fAdd {F : Facts} {p : String} {t : List String}
    (hF : FactsGround F) (ht : TupleGround t) : FactsGround (fAdd F p t) := by
  intro p' t' h
  rcases mem_fGet_fAdd_cases h with h' | ⟨-, h'⟩
  · exact hF p' t' h'
  · rw [h']; exact ht

theorem applySubsts_ground {r : Rule} : ∀ {subs : List Sub} {F : Facts} {ch : Bool}
    {F' : Facts} {ch' : Bool},
    FactsGround F → applySubsts r subs F ch = Except.ok (F', ch') → FactsGround F'
  | [], F, ch, F', ch', hF, h => by
    simp [applySubsts] at h
    rw [← h.1]
    exact hF
  | s :: rest, F, ch, F', ch', hF, h => by
    unfold applySubsts at h
    by_cases h1 : (applyArgs r.head_args s).any isVarT
    · rw [if_pos h1] at h
      exact applySubsts_ground hF h
    · rw [if_neg h1] at h
      by_cases h2 : applyArgs r.head_args s ∈ fGet F r.head_pred
      · rw [if_pos h2] at h
        exact applySubsts_ground hF h
      · rw [if_neg h2] at h
        by_cases h3 : r.head_pred ∈ rulePosPreds r
        · rw [if_pos h3] at h
          exact absurd h (by simp)
        · rw [if_neg h3] at h
          have ht : TupleGround (applyArgs r.head_args s) := by
            simpa [TupleGround] using h1
          exact applySubsts_ground (factsGround_fAdd hF ht) h

theorem evalPass_ground : ∀ {rules : List Rule} {F : Facts} {ch : Bool}
    {F' : Facts} {ch' : Bool},
    FactsGround F → evalPass rules F ch = Except.ok (F', ch') → FactsGround F'
  | [], F, ch, F', ch', hF, h => by
    simp [evalPass] at h
    rw [← h.1]
    exact hF
  | r :: rest, F, ch, F', ch', hF, h => by
    unfold evalPass at h
    cases hap : applySubsts r (matchBody F r.body []) F ch with
    | error e => rw [hap] at h; exact absurd h (by simp)
    | ok s =>
      rw [hap] at h
      exact evalPass_ground (applySubsts_ground hF hap) h

theorem evalStratum_ground : ∀ {rules : List Rule} {fuel : Nat} {F F' : Facts},
    FactsGround F → evalStratum rules fuel F = Except.ok F' → FactsGround F'
  | rules, 0, F, F', hF, h => by simp [evalStratum] at h
  | rules, fuel + 1, F, F', hF, h => by
    unfold evalStratum at h
    cases hp : evalPass rules F false with
    | error e => rw [hp] at h; exact absurd h (by simp)
    | ok s =>
      obtain ⟨F1, ch⟩ := s
      rw [hp] at h
      cases ch with
      | true =>
        simp at h
        exact evalStratum_ground (evalPass_ground hF hp) h
      | false =>
        simp at h
        rw [← h]
        exact evalPass_ground hF hp

theorem runStrata_ground {rules : List Rule} {strata : List (String × Nat)} :
    ∀ {ss : List Nat} {F F' : Facts},
    FactsGround F → runStrata rules strata ss F = Except.ok F' → FactsGround F'
  | [], F, F', hF, h => by
    simp [runStrata] at h
    rw [← h]
    exact hF
  | s :: rest, F, F', hF, h => by
    unfold runStrata at h
    cases hs : evalStratum (rules.filter (fun r => strataGet strata r.head_pred == s)) MAX_STRATUM_ITERS F with
    | error e => rw [hs] at h; exact absurd h (by simp)
    | ok F1 =>
      rw [hs] at h
      exact runStrata_ground (evalStratum_ground hF hs) h

theorem factsGroundB_sound {F : Facts} (h : factsGroundB F = true) : FactsGround F := by
  intro p t hm
  induction F with
  | nil => simp [fGet] at hm
  | cons kv rest ih =>
    obtain ⟨k, v⟩ := kv
    simp [factsGroundB] at h
    obtain ⟨hv, hrest⟩ := h
    by_cases hk : k = p
    · rw [fGet, if_pos hk] at hm
      have := hv t hm
      simpa [TupleGround] using this
    · rw [fGet, if_neg hk] at hm
      exact ih (by simpa [factsGroundB] using hrest) hm

/-- Claim C10: groundness of the fact store is invariant — if every tuple
of the initial store is ground (no argument starting with `?`), then every
tuple of the store returned by a successful `evaluate()` is still ground;
head tuples that keep a variable after substitution are skipped, never
inserted. -/
theorem c10_groundness (rules : List Rule) (S : Facts) (conds : Conds)
    (ev : Evaluator) (F : Facts) (ev' : Evaluator)
    (hmk : mkEvaluator rules S conds = Except.ok ev)
    (hg : factsGroundB S = true)
    (hev : ev.evaluate = Except.ok (F, ev')) :
    FactsGround F := by
  have hf := (mkEvaluator_ok hmk).2.2
  have hFg : FactsGround ev.facts := by
    rw [hf]
    exact factsGroundB_sound hg
  unfold Evaluator.evaluate at hev
  dsimp only at hev
  cases hr : runStrata ev.rules ev.strata
      (List.range ((ev.strata.map Prod.snd).foldl Nat.max 0 + 1)) ev.facts with
  | error e => rw [hr] at hev; exact absurd hev (by simp)
  | ok F1 =>
    rw [hr] at hev
    simp at hev
    rw [← hev.1]
    exact runStrata_ground hFg hr

/-! ### Goal parser (claim C7) -/

theorem head_dropWhile_not (p : Char → Bool) : ∀ (l : List Char) {x : Char},
    (l.dropWhile p).head? = some x → p x = false
  | [], x, h => by simp [List.dropWhile] at h
  | c :: rest, x, h => by
    rw [List.dropWhile_cons] at h
    by_cases hc : p c
    · rw [if_pos hc] at h
      exact head_dropWhile_not p rest h
    · rw [if_neg hc] at h
      simp at h
      rw [← h]
      simpa using hc

theorem stripChars_last_not (p : Char → Bool) (l : List Char) {x : Char}
    (h : (stripChars p l).getLast? = some x) : p x = false := by
  unfold stripChars at h
  rw [List.getLast?_reverse] at h
  exact head_dropWhile_not p _ h

/-- A whitespace-only suffix of a whitespace-stripped string is empty. -/
theorem space_suffix_empty {s : String} {a r : List Char}
    (h : stripWS s.toList = a ++ r) (hr : r.all isSpaceC = true) : r = [] := by
  rcases List.eq_nil_or_concat r with hnil | ⟨q, x, hqx⟩
  · exact hnil
  · exfalso
    rw [hqx, List.concat_eq_append] at h hr
    have hlast : (stripWS s.toList).getLast? = some x := by
      rw [h, ← List.append_assoc, List.getLast?_concat]
    have hx : isSpaceC x = false := stripChars_last_not _ _ hlast
    rw [List.all_append] at hr
    have : isSpaceC x = true := by
      have := (Bool.and_eq_true _ _).mp hr
      simpa using this.2
    rw [hx] at this
    exact Bool.false_ne_true this

theorem takeWhile_append_of_all (p : Char → Bool) : ∀ (xs ys : List Char), xs.all p = true →
    (xs ++ ys).takeWhile p = xs ++ ys.takeWhile p
  | [], ys, _ => rfl
  | x :: xs, ys, h => by
    rw [List.all_cons, Bool.and_eq_true] at h
    simp only [List.cons_append, List.takeWhile_cons, if_pos h.1]
    rw [takeWhile_append_of_all p xs ys h.2]

theorem dropWhile_append_of_all (p : Char → Bool) : ∀ (xs ys : List Char), xs.all p = true →
    (xs ++ ys).dropWhile p = ys.dropWhile p
  | [], ys, _ => rfl
  | x :: xs, ys, h => by
    rw [List.all_cons, Bool.and_eq_true] at h
    simp only [List.cons_append, List.dropWhile_cons, if_pos h.1]
    exact dropWhile_append_of_all p xs ys h.2

theorem all_takeWhile (p : Char → Bool) (l : List Char) : (l.takeWhile p).all p = true :=
  List.all_eq_true.mpr (fun _ hx => List.mem_takeWhile_imp hx)

theorem isNameC_of_space {c : Char} (h : isSpaceC c = true) : isNameC c = false := by
  simp only [isSpaceC, isNameC, isNameStartC, decide_eq_true_eq] at h ⊢
  simp only [decide_eq_false_iff_not]
  omega

/-- Soundness of the goal parser against the amended shape. -/
theorem parseGoal_sound {s : String} {nm : String} {args : List String}
    (h : parse_goal s = some (nm, args)) : GoalShape s nm args := by
  unfold parse_goal at h
  cases hl : stripWS s.toList with
  | nil => rw [hl] at h; exact absurd h (by simp [parseGoalCore])
  | cons c rest =>
    rw [hl] at h
    rw [parseGoalCore] at h
    by_cases hstart : isNameStartC c
    · rw [if_pos hstart] at h
      unfold parseAfterName at h
      have hdecomp : rest = rest.takeWhile isNameC ++ rest.dropWhile isNameC :=
        (List.takeWhile_append_dropWhile isNameC rest).symm
      have hr1 : rest.dropWhile isNameC =
          (rest.dropWhile isNameC).takeWhile isSpaceC
            ++ (rest.dropWhile isNameC).dropWhile isSpaceC :=
        (List.takeWhile_append_dropWhile isSpaceC _).symm
      cases hr2 : (rest.dropWhile isNameC).dropWhile isSpaceC with
      | nil =>
        rw [hr2] at h
        rw [parseAfterSpaces] at h
        rw [Option.some_inj] at h
        have h1 := congrArg Prod.fst h
        have h2 := congrArg Prod.snd h
        have hall : (rest.dropWhile isNameC).all isSpaceC = true :=
          List.all_eq_true.mpr (List.dropWhile_eq_nil_iff.mp hr2)
        have hempty : rest.dropWhile isNameC = [] := by
          refine space_suffix_empty (s := s) (a := c :: rest.takeWhile isNameC) ?_ hall
          rw [hl]
          rw [List.cons_append, ← hdecomp]
        refine ⟨c, rest.takeWhile isNameC, [], ?_, hstart, all_takeWhile _ _, ?_, Or.inl ⟨rfl, ?_⟩⟩
        · rw [hl, List.append_nil]
          conv_lhs => rw [hdecomp]
          rw [hempty, List.append_nil]
        · exact h1.symm
        · exact h2.symm
      | cons c2 r3 =>
        rw [hr2] at h
        rw [parseAfterSpaces] at h
        by_cases hpar : c2 = '('
        · rw [if_pos hpar] at h
          unfold parseAfterParen at h
          cases hdw : r3.dropWhile (fun x => x ≠ ')') with
          | nil => rw [hdw] at h; exact absurd h (by simp [parseClose])
          | cons d r4 =>
            rw [hdw] at h
            rw [parseClose] at h
            have hd : d = ')' := by
              have := head_dropWhile_not (fun x => x ≠ ')') r3 (x := d) (by rw [hdw]; rfl)
              simpa using this
            rw [if_pos hd] at h
            by_cases hr4 : r4.all isSpaceC
            · rw [if_pos hr4] at h
              rw [Option.some_inj] at h
              have h1 := congrArg Prod.fst h
              have h2 := congrArg Prod.snd h
              have hrest : rest = rest.takeWhile isNameC
                  ++ ((rest.dropWhile isNameC).takeWhile isSpaceC
                    ++ (c2 :: r3)) := by
                rw [← hr2, ← hr1, ← hdecomp]
              have hr3 : r3 = r3.takeWhile (fun x => x ≠ ')') ++ (d :: r4) := by
                rw [← hdw, List.takeWhile_append_dropWhile]
              have hempty : r4 = [] := by
                refine space_suffix_empty (s := s)
                  (a := c :: (rest.takeWhile isNameC
                    ++ ((rest.dropWhile isNameC).takeWhile isSpaceC
                      ++ (c2 :: (r3.takeWhile (fun x => x ≠ ')') ++ [d]))))) ?_ hr4
                rw [hl]
                conv_lhs => rw [hrest]
                conv_lhs => rw [hr3]
                simp
              refine ⟨c, rest.takeWhile isNameC,
                (rest.dropWhile isNameC).takeWhile isSpaceC ++ (c2 :: r3),
                ?_, hstart, all_takeWhile _ _, h1.symm, Or.inr ?_⟩
              · rw [hl]
                conv_lhs => rw [hrest]
              · refine ⟨(rest.dropWhile isNameC).takeWhile isSpaceC,
                  r3.takeWhile (fun x => x ≠ ')'), ?_, all_takeWhile _ _,
                  all_takeWhile _ _, h2.symm⟩
                rw [hpar]
                conv_lhs => rw [hr3]
                rw [hempty, hd]
            · rw [if_neg hr4] at h
              exact absurd h (by simp)
        · rw [if_neg hpar] at h
          exact absurd h (by simp)
    · rw [if_neg hstart] at h
      exact absurd h (by simp)

theorem takeWhile_eq_self_of_all (p : Char → Bool) (l : List Char) (h : l.all p = true) :
    l.takeWhile p = l := by
  have := takeWhile_append_of_all p l [] h
  simpa using this

theorem dropWhile_eq_nil_of_all (p : Char → Bool) (l : List Char) (h : l.all p = true) :
    l.dropWhile p = [] := by
  have := dropWhile_append_of_all p l [] h
  simpa using this

theorem takeWhile_nil_of_head (p : Char → Bool) (x : Char) (t : List Char) (hx : p x = false) :
    (x :: t).takeWhile p = [] := by
  simp [List.takeWhile_cons, hx]

theorem dropWhile_id_of_head (p : Char → Bool) (x : Char) (t : List Char) (hx : p x = false) :
    (x :: t).dropWhile p = x :: t := by
  simp [List.dropWhile_cons, hx]

/-- Completeness of the goal parser for the amended shape. -/
theorem parseGoal_complete {s : String} {nm : String} {args : List String}
    (h : GoalShape s nm args) : parse_goal s = some (nm, args) := by
  obtain ⟨c, cs, rest, hl, hstart, hcs, hnm, hbranch⟩ := h
  unfold parse_goal
  rw [hl]
  rw [parseGoalCore]
  rw [if_pos hstart]
  unfold parseAfterName
  cases hbranch with
  | inl hb =>
    obtain ⟨hrest, hargs⟩ := hb
    rw [hrest, List.append_nil,
      takeWhile_eq_self_of_all isNameC cs hcs,
      dropWhile_eq_nil_of_all isNameC cs hcs]
    rw [hnm, hargs]
    rfl
  | inr hb =>
    obtain ⟨ws, inner, hrest, hws, hinner, hargs⟩ := hb
    have htw : (cs ++ rest).takeWhile isNameC = cs := by
      rw [takeWhile_append_of_all isNameC cs rest hcs, hrest]
      cases hws' : ws with
      | nil =>
        rw [List.nil_append, takeWhile_nil_of_head isNameC '(' _ (by decide), List.append_nil]
      | cons w wt =>
        rw [hws'] at hws
        rw [List.all_cons, Bool.and_eq_true] at hws
        rw [List.cons_append, takeWhile_nil_of_head isNameC w _ (isNameC_of_space hws.1),
          List.append_nil]
    have hdw : (cs ++ rest).dropWhile isNameC = rest := by
      rw [dropWhile_append_of_all isNameC cs rest hcs, hrest]
      cases hws' : ws with
      | nil =>
        rw [List.nil_append, dropWhile_id_of_head isNameC '(' _ (by decide)]
      | cons w wt =>
        rw [hws'] at hws
        rw [List.all_cons, Bool.and_eq_true] at hws
        rw [List.cons_append, dropWhile_id_of_head isNameC w _ (isNameC_of_space hws.1),
          ← List.cons_append]
    rw [htw, hdw, hrest]
    rw [dropWhile_append_of_all isSpaceC ws _ hws,
      dropWhile_id_of_head isSpaceC '(' _ (by decide)]
    rw [parseAfterSpaces, if_pos rfl]
    unfold parseAfterParen
    rw [takeWhile_append_of_all (fun x => x ≠ ')') inner [')'] hinner,
      takeWhile_nil_of_head (fun x => x ≠ ')') ')' [] (by decide), List.append_nil,
      dropWhile_append_of_all (fun x => x ≠ ')') inner [')'] hinner,
      dropWhile_id_of_head (fun x => x ≠ ')') ')' [] (by decide)]
    rw [parseClose]
    simp [hnm, hargs]

/-- Counterexample to claim C7 as stated: the source regex is compiled with
`re.IGNORECASE`, so `parse_goal` accepts `Foo` (returning it as the
predicate with zero arguments), while the claim's shape — predicate names
starting with a lowercase letter, lowercase letters/digits/underscores
after it — rejects it. -/
theorem c7_parse_goal_cex :
    parse_goal ("Foo") = some ("Foo", []) ∧ ¬ ClaimGoalShape ("Foo") := by
  constructor
  · rfl
  · rintro ⟨c, cs, rest, hdec, hlow, -, -⟩
    have hdec' : ('F' :: ['o', 'o'] : List Char) = c :: (cs ++ rest) := hdec
    injection hdec' with h1 h2
    rw [← h1] at hlow
    exact absurd hlow (by decide)

/-- Claim C7 (amended): `parse_goal` strips surrounding whitespace and then
accepts exactly the strings consisting of a predicate name matching
`[a-zA-Z_][a-zA-Z0-9_]*` (the source regex is case-insensitive and allows
a leading underscore), optionally followed by whitespace and a
parenthesised run of non-`)` characters; the arguments are the
comma-separated tokens of that run with surrounding whitespace and
single/double quotes stripped, a missing group or a whitespace-only run
yielding zero arguments; any other input raises a parse error.  The ASCII
hypothesis scopes the theorem to inputs on which the embedded character
classes coincide with Python's Unicode-aware `str.strip`/`\s`/
`re.IGNORECASE` behaviour. -/
theorem c7_parse_goal (s : String) (nm : String) (args : List String)
    (hascii : s.toList.all (fun c => c.toNat < 128) = true) :
    parse_goal s = some (nm, args) ↔ GoalShape s nm args :=
  ⟨parseGoal_sound, parseGoal_complete⟩

/-- Witness for the amended C7 at a concrete accepted goal string. -/
theorem c7_parse_goal_witness :
    (" Foo( a, b )" : String).toList.all (fun c => c.toNat < 128) = true ∧
    GoalShape (" Foo( a, b )") ("Foo") ["a", "b"] :=
  ⟨by decide,
    (c7_parse_goal (" Foo( a, b )") ("Foo") ["a", "b"] (by decide)).mp (by rfl)⟩

/-! ### Validator error cap (claim C6) -/

theorem validateStages_errors (idx : ManifestIndex) (r : RuleJ) (src : Option String) :
    (validateStages idx r src).errors =
      stagePredicates idx (normalizeRule r)
        ++ ((if (stagePredicates idx (normalizeRule r)).length < MAX_ERRORS
              then stageEnums idx (normalizeRule r) else [])
        ++ ((if (errsThroughC idx (normalizeRule r)).length < MAX_ERRORS
              then (stageSafety (normalizeRule r)).1 else [])
        ++ ((if (errsThroughD idx (normalizeRule r)).length < MAX_ERRORS
              then stageProvenance (normalizeRule r) src else [])
        ++ (if (errsThroughE idx (normalizeRule r) src).length < MAX_ERRORS
              then stageAssumptions idx (normalizeRule r) else [])))) := by
  simp [validateStages, errsThroughE, errsThroughD, errsThroughC, List.append_assoc]

/-- Counterexample to claim C6 as stated: against an empty manifest, a rule
whose body has 21 atoms with an unknown predicate receives 21
`PRED_UNKNOWN` errors from stage B alone — the 20-error cap only gates
entry to stages C–F, it does not truncate a stage's output. -/
theorem c6_error_cap_cex :
    ¬ ((validate (mkManifestIndex ("allow_only_listed") [] []) none
        ⟨none, List.replicate 21 ⟨"u", [], false⟩, [], [], none⟩ none).errors.length ≤ 20) := by
  decide

/-- Stages B–F can exceed `MAX_ERRORS` only by the overshoot of the single
stage that crosses the cap: each of stages C, D, E, F starts only while
the accumulated count is below `MAX_ERRORS`, so the total stays below
`MAX_ERRORS` plus the largest single-stage contribution. -/
theorem validateStages_len_le_aux (idx : ManifestIndex) (r : RuleJ) (src : Option String)
    (M : Nat)
    (m1 : (stagePredicates idx (normalizeRule r)).length ≤ M)
    (m2 : (stageEnums idx (normalizeRule r)).length ≤ M)
    (m3 : (stageSafety (normalizeRule r)).1.length ≤ M)
    (m4 : (stageProvenance (normalizeRule r) src).length ≤ M)
    (m5 : (stageAssumptions idx (normalizeRule r)).length ≤ M) :
    (validateStages idx r src).errors.length < MAX_ERRORS + M := by
  have hM20 : MAX_ERRORS = 20 := rfl
  have hC : (errsThroughC idx (normalizeRule r)).length < MAX_ERRORS + M := by
    by_cases h1 : (stagePredicates idx (normalizeRule r)).length < MAX_ERRORS
    · have he : (errsThroughC idx (normalizeRule r)).length
          = (stagePredicates idx (normalizeRule r)).length
            + (stageEnums idx (normalizeRule r)).length := by
        simp [errsThroughC, h1]
      omega
    · have he : (errsThroughC idx (normalizeRule r)).length
          = (stagePredicates idx (normalizeRule r)).length := by
        simp [errsThroughC, h1]
      omega
  have hD : (errsThroughD idx (normalizeRule r)).length < MAX_ERRORS + M := by
    by_cases h2 : (errsThroughC idx (normalizeRule r)).length < MAX_ERRORS
    · have he : (errsThroughD idx (normalizeRule r)).length
          = (errsThroughC idx (normalizeRule r)).length
            + (stageSafety (normalizeRule r)).1.length := by
        simp [errsThroughD, h2]
      omega
    · have he : (errsThroughD idx (normalizeRule r)).length
          = (errsThroughC idx (normalizeRule r)).length := by
        simp [errsThroughD, h2]
      omega
  have hE : (errsThroughE idx (normalizeRule r) src).length < MAX_ERRORS + M := by
    by_cases h3 : (errsThroughD idx (normalizeRule r)).length < MAX_ERRORS
    · have he : (errsThroughE idx (normalizeRule r) src).length
          = (errsThroughD idx (normalizeRule r)).length
            + (stageProvenance (normalizeRule r) src).length := by
        simp [errsThroughE, h3]
      omega
    · have he : (errsThroughE idx (normalizeRule r) src).length
          = (errsThroughD idx (normalizeRule r)).length := by
        simp [errsThroughE, h3]
      omega
  by_cases h4 : (errsThroughE idx (normalizeRule r) src).length < MAX_ERRORS
  · have hT : (validateStages idx r src).errors.length
        = (errsThroughE idx (normalizeRule r) src).length
          + (stageAssumptions idx (normalizeRule r)).length := by
      simp [validateStages, h4]
    omega
  · have hT : (validateStages idx r src).errors.length
        = (errsThroughE idx (normalizeRule r) src).length := by
      simp [validateStages, h4]
    omega

theorem validateStages_len_le (idx : ManifestIndex) (r : RuleJ) (src : Option String) :
    (validateStages idx r src).errors.length
      < MAX_ERRORS +
        max (stagePredicates idx (normalizeRule r)).length
          (max (stageEnums idx (normalizeRule r)).length
            (max (stageSafety (normalizeRule r)).1.length
              (max (stageProvenance (normalizeRule r) src).length
                (stageAssumptions idx (normalizeRule r)).length))) :=
  validateStages_len_le_aux idx r src _
    (le_max_left _ _)
    (le_trans (le_max_left _ _) (le_max_right _ _))
    (le_trans (le_trans (le_max_left _ _) (le_max_right _ _)) (le_max_right _ _))
    (le_trans (le_trans (le_trans (le_max_left _ _) (le_max_right _ _))
      (le_max_right _ _)) (le_max_right _ _))
    (le_trans (le_trans (le_trans (le_max_right _ _) (le_max_right _ _))
      (le_max_right _ _)) (le_max_right _ _))

/-- Claim C6 (amended): the 20-error cap bounds where new stages start,
not the total error count.  A failing schema stage short-circuits stages
B–F and the report carries exactly the schema errors; otherwise the
report's error list is exactly stage B's output followed by the outputs of
stages C, D, E and F, each contributing only if fewer than `MAX_ERRORS`
errors had accumulated before it.  Consequently the total may exceed
`MAX_ERRORS` only by the overshoot of the single stage that crosses the
cap: it is always below `MAX_ERRORS` plus the largest single-stage
contribution.  (The claim's unconditional bound of 20 does not hold.) -/
theorem c6_error_cap (idx : ManifestIndex) (sErr : Option (List VError))
    (r : RuleJ) (src : Option String) :
    (∀ es, sErr = some es → es ≠ [] → (validate idx sErr r src).errors = es) ∧
    ((sErr = none ∨ sErr = some []) →
      (validate idx sErr r src).errors =
        stagePredicates idx (normalizeRule r)
          ++ ((if (stagePredicates idx (normalizeRule r)).length < MAX_ERRORS
                then stageEnums idx (normalizeRule r) else [])
          ++ ((if (errsThroughC idx (normalizeRule r)).length < MAX_ERRORS
                then (stageSafety (normalizeRule r)).1 else [])
          ++ ((if (errsThroughD idx (normalizeRule r)).length < MAX_ERRORS
                then stageProvenance (normalizeRule r) src else [])
          ++ (if (errsThroughE idx (normalizeRule r) src).length < MAX_ERRORS
                then stageAssumptions idx (normalizeRule r) else []))))) ∧
    (validate idx sErr r src).errors.length
      < MAX_ERRORS +
        max (match sErr with | some es => es.length | none => 0)
          (max (stagePredicates idx (normalizeRule r)).length
            (max (stageEnums idx (normalizeRule r)).length
              (max (stageSafety (normalizeRule r)).1.length
                (max (stageProvenance (normalizeRule r) src).length
                  (stageAssumptions idx (normalizeRule r)).length)))) := by
  refine ⟨?_, ?_, ?_⟩
  · intro es hse hne
    rw [hse]
    simp [validate, hne]
  · intro h
    have hv : (validate idx sErr r src).errors = (validateStages idx r src).errors := by
      rcases h with h | h <;> rw [h] <;> simp [validate]
    rw [hv]
    exact validateStages_errors idx r src
  · rcases sErr with - | es
    · have hv : (validate idx none r src).errors = (validateStages idx r src).errors := rfl
      rw [hv]
      exact lt_of_lt_of_le (validateStages_len_le idx r src)
        (Nat.add_le_add_left (le_max_right _ _) _)
    · by_cases hes : es = []
      · subst hes
        have hv : (validate idx (some []) r src).errors
            = (validateStages idx r src).errors := by
          simp [validate]
        rw [hv]
        exact lt_of_lt_of_le (validateStages_len_le idx r src)
          (Nat.add_le_add_left (le_max_right _ _) _)
      · have hv : (validate idx (some es) r src).errors = es := by
          simp [validate, hes]
        rw [hv]
        show es.length < MAX_ERRORS +
          max es.length
            (max (stagePredicates idx (normalizeRule r)).length
              (max (stageEnums idx (normalizeRule r)).length
                (max (stageSafety (normalizeRule r)).1.length
                  (max (stageProvenance (normalizeRule r) src).length
                    (stageAssumptions idx (normalizeRule r)).length))))
        have h1 : es.length ≤
            max es.length
              (max (stagePredicates idx (normalizeRule r)).length
                (max (stageEnums idx (normalizeRule r)).length
                  (max (stageSafety (normalizeRule r)).1.length
                    (max (stageProvenance (normalizeRule r) src).length
                      (stageAssumptions idx (normalizeRule r)).length)))) :=
          le_max_left _ _
        have hM : MAX_ERRORS = 20 := rfl
        omega

/-! ### Closed-world assumption enforcement (claim C5) -/

theorem mem_insertNew {l : List String} {x y : String} :
    y ∈ insertNew l x ↔ y ∈ l ∨ y = x := by
  unfold insertNew
  by_cases h : x ∈ l
  · rw [if_pos h]
    exact ⟨Or.inl, fun hy => hy.elim id (fun he => he ▸ h)⟩
  · rw [if_neg h]
    simp

theorem mem_foldl_insertNew : ∀ (l : List String) (acc : List String) (y : String),
    y ∈ l.foldl insertNew acc ↔ y ∈ acc ∨ y ∈ l
  | [], acc, y => by simp
  | x :: xs, acc, y => by
    simp only [List.foldl_cons]
    rw [mem_foldl_insertNew xs (insertNew acc x) y, mem_insertNew]
    simp only [List.mem_cons]
    tauto

theorem mem_dedupStr {l : List String} {y : String} : y ∈ dedupStr l ↔ y ∈ l := by
  unfold dedupStr
  rw [mem_foldl_insertNew]
  simp

theorem mem_insSortIns {x y : String} : ∀ (l : List String),
    y ∈ insSortIns x l ↔ y = x ∨ y ∈ l
  | [] => by simp [insSortIns]
  | z :: zs => by
    unfold insSortIns
    by_cases h : charsLt x.toList z.toList
    · rw [if_pos h]
      simp
    · rw [if_neg h]
      simp only [List.mem_cons, mem_insSortIns zs]
      tauto

theorem mem_insSort {y : String} : ∀ (l : List String), y ∈ insSort l ↔ y ∈ l
  | [] => Iff.rfl
  | x :: xs => by
    unfold insSort
    rw [mem_insSortIns, mem_insSort xs]
    simp

theorem checkAtom_codes {idx : ManifestIndex} {a : Atom} {path : String} {inHead : Bool} :
    ∀ e ∈ checkAtom idx a path inHead, e.code ≠ ErrorCode.ASSUMPTION_REQUIRED_CW := by
  intro e he hcode
  unfold checkAtom at he
  repeat'
    first
      | split at he
      | (dsimp only at he; split at he)
  all_goals
    simp only [List.mem_append, List.mem_singleton, List.mem_cons,
      List.not_mem_nil, or_false, false_or] at he
  all_goals
    first
      | exact he
      | ((rcases he with he | he) <;> (rw [he] at hcode; exact absurd hcode (by simp)))
      | (rw [he] at hcode; exact absurd hcode (by simp))

theorem stagePredicates_codes {idx : ManifestIndex} {r : RuleJ} :
    ∀ e ∈ stagePredicates idx r, e.code ≠ ErrorCode.ASSUMPTION_REQUIRED_CW := by
  intro e he
  unfold stagePredicates at he
  rcases List.mem_append.mp he with h | h
  · split at h
    · exact checkAtom_codes e h
    · simp at h
  · obtain ⟨ia, -, hmem⟩ := List.mem_flatMap.mp h
    exact checkAtom_codes e hmem

theorem checkEnumArgs_codes {idx : ManifestIndex} {a : Atom} {path : String} :
    ∀ e ∈ checkEnumArgs idx a path, e.code ≠ ErrorCode.ASSUMPTION_REQUIRED_CW := by
  intro e he hcode
  unfold checkEnumArgs at he
  repeat'
    first
      | split at he
      | (dsimp only at he; split at he)
  all_goals
    simp only [List.mem_append, List.mem_singleton, List.mem_cons,
      List.not_mem_nil, or_false, false_or] at he
  all_goals
    first
      | exact he
      | ((rcases he with he | he) <;> (rw [he] at hcode; exact absurd hcode (by simp)))
      | (rw [he] at hcode; exact absurd hcode (by simp))

theorem stageEnums_codes {idx : ManifestIndex} {r : RuleJ} :
    ∀ e ∈ stageEnums idx r, e.code ≠ ErrorCode.ASSUMPTION_REQUIRED_CW := by
  intro e he
  unfold stageEnums at he
  rcases List.mem_append.mp he with h | h
  · split at h
    · exact checkEnumArgs_codes e h
    · simp at h
  · obtain ⟨ia, -, hmem⟩ := List.mem_flatMap.mp h
    exact checkEnumArgs_codes e hmem

theorem stageSafety_codes {r : RuleJ} :
    ∀ e ∈ (stageSafety r).1, e.code ≠ ErrorCode.ASSUMPTION_REQUIRED_CW := by
  intro e he hcode
  unfold stageSafety at he
  simp only [List.mem_append] at he
  rcases he with ((h | h) | h) | h
  · obtain ⟨arg, -, hmem⟩ := List.mem_flatMap.mp h
    split at hmem
    all_goals simp_all
  · obtain ⟨ia, -, hmem⟩ := List.mem_flatMap.mp h
    split at hmem
    · obtain ⟨arg, -, hmem2⟩ := List.mem_flatMap.mp hmem
      split at hmem2
      all_goals simp_all
    · simp at hmem
  · obtain ⟨arg, -, hmem⟩ := List.mem_flatMap.mp h
    split at hmem
    all_goals simp_all
  · obtain ⟨ia, -, hmem⟩ := List.mem_flatMap.mp h
    obtain ⟨arg, -, hmem2⟩ := List.mem_flatMap.mp hmem
    split at hmem2
    all_goals simp_all

theorem stageProvenance_codes {r : RuleJ} {src : Option String} :
    ∀ e ∈ stageProvenance r src, e.code ≠ ErrorCode.ASSUMPTION_REQUIRED_CW := by
  intro e he hcode
  unfold stageProvenance at he
  repeat'
    first
      | split at he
      | (dsimp only at he; split at he)
  all_goals
    simp only [List.mem_append, List.mem_singleton, List.mem_cons,
      List.not_mem_nil, or_false, false_or] at he
  all_goals
    first
      | exact he
      | ((rcases he with he | he) <;> (rw [he] at hcode; exact absurd hcode (by simp)))
      | (rw [he] at hcode; exact absurd hcode (by simp))

theorem checkAssumption_codes {idx : ManifestIndex} {a : Assumption} {i : Nat} {body : List Atom} :
    ∀ e ∈ checkAssumption idx a i body, e.code ≠ ErrorCode.ASSUMPTION_REQUIRED_CW := by
  intro e he hcode
  unfold checkAssumption at he
  repeat'
    first
      | split at he
      | (dsimp only at he; split at he)
  all_goals
    simp only [List.mem_append, List.mem_singleton, List.mem_cons,
      List.not_mem_nil, or_false, false_or] at he
  all_goals
    first
      | exact he
      | ((rcases he with he | he) <;> (rw [he] at hcode; exact absurd hcode (by simp)))
      | (rw [he] at hcode; exact absurd hcode (by simp))

theorem errsThroughC_codes {idx : ManifestIndex} {nr : RuleJ} :
    ∀ e ∈ errsThroughC idx nr, e.code ≠ ErrorCode.ASSUMPTION_REQUIRED_CW := by
  intro e he
  unfold errsThroughC at he
  rcases List.mem_append.mp he with h | h
  · exact stagePredicates_codes e h
  · split at h
    · exact stageEnums_codes e h
    · simp at h

theorem errsThroughD_codes {idx : ManifestIndex} {nr : RuleJ} :
    ∀ e ∈ errsThroughD idx nr, e.code ≠ ErrorCode.ASSUMPTION_REQUIRED_CW := by
  intro e he
  unfold errsThroughD at he
  rcases List.mem_append.mp he with h | h
  · exact errsThroughC_codes e h
  · split at h
    · exact stageSafety_codes e h
    · simp at h

theorem errsThroughE_codes {idx : ManifestIndex} {nr : RuleJ} {src : Option String} :
    ∀ e ∈ errsThroughE idx nr src, e.code ≠ ErrorCode.ASSUMPTION_REQUIRED_CW := by
  intro e he
  unfold errsThroughE at he
  rcases List.mem_append.mp he with h | h
  · exact errsThroughD_codes e h
  · split at h
    · exact stageProvenance_codes e h
    · simp at h

theorem lookupByName_mem {idx : ManifestIndex} {nm : String} {e : PredEntry}
    (h : lookupByName idx nm = some e) : e ∈ idx.entries := by
  unfold lookupByName at h
  have := List.mem_of_find?_eq_some h
  exact List.mem_reverse.mp this

theorem lookupByName_name {idx : ManifestIndex} {nm : String} {e : PredEntry}
    (h : lookupByName idx nm = some e) : e.name = nm := by
  unfold lookupByName at h
  have := List.find?_some h
  simpa using this

/-- Counterexample to claim C5 as stated: with `m/1` in the closed-world
set and a rule whose body negates `m` without a `closed_world` assumption,
the obligation of the claim holds, yet when 20 errors have already
accumulated (here from 20 unknown body predicates) stage F never runs and
no `ASSUMPTION_REQUIRED_CW` error is emitted. -/
theorem c5_assumption_cw_cex :
    CWObligation
      (mkManifestIndex ("allow_only_listed") ["m/1"] [⟨"m", 1, none, "input", "domain", none, none⟩])
      ⟨none, List.replicate 20 ⟨"u", [], false⟩ ++ [⟨"m", ["c"], true⟩], [], [], none⟩ ∧
    ∀ e ∈ (validate
        (mkManifestIndex ("allow_only_listed") ["m/1"] [⟨"m", 1, none, "input", "domain", none, none⟩])
        none
        ⟨none, List.replicate 20 ⟨"u", [], false⟩ ++ [⟨"m", ["c"], true⟩], [], [], none⟩
        none).errors,
      e.code ≠ ErrorCode.ASSUMPTION_REQUIRED_CW := by
  constructor
  · refine ⟨⟨"m", ["c"], true⟩, by simp, rfl,
      buildEntry ⟨"m", 1, none, "input", "domain", none, none⟩, by rfl, by decide, by simp⟩
  · decide

/-- Claim C5 (amended): provided the schema stage passes, fewer than 20
errors have accumulated before stage F, and the manifest's entries carry
the default `name/arity` pred keys, `RuleValidator.validate` emits an
`ASSUMPTION_REQUIRED_CW` error exactly when some negated body atom
resolves to a manifest entry whose `name/arity` is in the closed-world set
and no assumption of type `closed_world` has that `name/arity` as its
`about.pred`. -/
theorem c5_assumption_cw (idx : ManifestIndex) (sErr : Option (List VError))
    (r : RuleJ) (src : Option String)
    (hpred : ∀ e ∈ idx.entries, e.pred = e.name ++ "/" ++ toString e.arity)
    (hsch : sErr = none ∨ sErr = some [])
    (hcap : (errsThroughE idx (normalizeRule r) src).length < MAX_ERRORS) :
    (∃ e ∈ (validate idx sErr r src).errors, e.code = ErrorCode.ASSUMPTION_REQUIRED_CW)
      ↔ CWObligation idx r := by
  have herr : (validate idx sErr r src).errors =
      errsThroughE idx (normalizeRule r) src ++ stageAssumptions idx (normalizeRule r) := by
    rcases hsch with h | h
    · subst h
      simp [validate, validateStages, if_pos hcap]
    · subst h
      simp [validate, validateStages, if_pos hcap]
  have hbody : (normalizeRule r).body = r.body := rfl
  have hassum : (normalizeRule r).assumptions = r.assumptions := rfl
  rw [herr]
  unfold stageAssumptions
  rw [hbody, hassum]
  dsimp only
  constructor
  · rintro ⟨e, he, hcode⟩
    rcases List.mem_append.mp he with h | h
    · exact absurd hcode (errsThroughE_codes e h)
    · rcases List.mem_append.mp h with h' | h'
      · obtain ⟨ia, -, hmem⟩ := List.mem_flatMap.mp h'
        exact absurd hcode (checkAssumption_codes e hmem)
      · obtain ⟨pr, hpr, hin⟩ := List.mem_flatMap.mp h'
        rw [mem_insSort, mem_dedupStr] at hpr
        obtain ⟨a, ha, hfa⟩ := List.mem_flatMap.mp hpr
        by_cases hneg : a.negated
        · rw [if_pos hneg] at hfa
          cases hlk : lookupByName idx a.pred with
          | none =>
            rw [hlk] at hfa
            have hfa' : pr ∈ ([] : List String) := hfa
            simp at hfa'
          | some ent =>
            rw [hlk] at hfa
            have hfa' : pr ∈ (if isNafCW idx ent.pred then [ent.pred] else []) := hfa
            by_cases hcwp : isNafCW idx ent.pred
            · rw [if_pos hcwp] at hfa'
              simp at hfa'
              subst hfa'
              have epred := hpred ent (lookupByName_mem hlk)
              by_cases hcov : (r.assumptions.flatMap fun x =>
                  if x.type = "closed_world" then [x.aboutPred] else []).contains ent.pred
              · rw [if_neg (fun hc => hc hcov)] at hin
                simp at hin
              · refine ⟨a, ha, (by simpa using hneg), ent, hlk, ?_, ?_⟩
                · rw [← epred]; exact (by simpa using hcwp)
                · rintro ⟨x, hx, hty, hab⟩
                  refine absurd ?_ hcov
                  refine List.contains_iff_exists_mem_beq.mpr ⟨x.aboutPred, ?_, ?_⟩
                  · exact List.mem_flatMap.mpr ⟨x, hx, by rw [if_pos hty]; simp⟩
                  · rw [hab, ← epred]
                    simp
            · rw [if_neg hcwp] at hfa'
              simp at hfa'
        · rw [if_neg hneg] at hfa
          simp at hfa
  · rintro ⟨a, ha, hneg, ent, hlk, hcw, hnocov⟩
    have epred := hpred ent (lookupByName_mem hlk)
    have hprm : ent.pred ∈ r.body.flatMap (fun a =>
        if a.negated then
          match lookupByName idx a.pred with
          | some e => if isNafCW idx e.pred then [e.pred] else []
          | none => []
        else []) := by
      refine List.mem_flatMap.mpr ⟨a, ha, ?_⟩
      rw [if_pos hneg, hlk]
      show ent.pred ∈ (if isNafCW idx ent.pred then [ent.pred] else [])
      rw [if_pos (by rw [epred]; exact hcw)]
      simp
    have hncov : ¬ ((r.assumptions.flatMap fun x =>
        if x.type = "closed_world" then [x.aboutPred] else []).contains ent.pred = true) := by
      intro hc
      obtain ⟨b, hbm, hbeq⟩ := List.contains_iff_exists_mem_beq.mp hc
      obtain ⟨x, hx, hxin⟩ := List.mem_flatMap.mp hbm
      by_cases hty : x.type = "closed_world"
      · rw [if_pos hty] at hxin
        simp at hxin
        refine hnocov ⟨x, hx, hty, ?_⟩
        have hb2 : ent.pred = b := by simpa using hbeq
        rw [← epred, ← hxin, ← hb2]
      · rw [if_neg hty] at hxin
        simp at hxin
    refine ⟨⟨ErrorCode.ASSUMPTION_REQUIRED_CW, "/assumptions"⟩, ?_, rfl⟩
    refine List.mem_append.mpr (Or.inr (List.mem_append.mpr (Or.inr ?_)))
    refine List.mem_flatMap.mpr ⟨ent.pred, ?_, ?_⟩
    · rw [mem_insSort, mem_dedupStr]
      exact hprm
    · rw [if_pos (by simpa using hncov)]
      simp

/-- Witness for the amended C5: a negated closed-world predicate without a
`closed_world` assumption makes `validate` emit `ASSUMPTION_REQUIRED_CW`. -/
theorem c5_assumption_cw_witness :
    ∃ e ∈ (validate
        (mkManifestIndex ("allow_only_listed") ["m/1"] [⟨"m", 1, none, "input", "domain", none, none⟩])
        none ⟨none, [⟨"m", ["c"], true⟩], [], [], none⟩ none).errors,
      e.code = ErrorCode.ASSUMPTION_REQUIRED_CW :=
  (c5_assumption_cw
      (mkManifestIndex ("allow_only_listed") ["m/1"] [⟨"m", 1, none, "input", "domain", none, none⟩])
      none ⟨none, [⟨"m", ["c"], true⟩], [], [], none⟩ none
      (by decide) (Or.inl rfl) (by decide)).mpr
    ⟨⟨"m", ["c"], true⟩, by simp, rfl,
      buildEntry ⟨"m", 1, none, "input", "domain", none, none⟩, by rfl, by decide, by simp⟩

/-- Witness for C10 at a concrete ground run. -/
theorem c10_groundness_witness :
    factsGroundB [("p", [["a"]])] = true ∧
    FactsGround [("p", [["a"]]), ("q", [["a"]])] :=
  ⟨rfl,
    c10_groundness [⟨"r", "f", "q", ["?X"], [⟨"p", ["?X"], false⟩]⟩] [("p", [["a"]])] []
      ⟨[⟨"r", "f", "q", ["?X"], [⟨"p", ["?X"], false⟩]⟩], [("q", 0), ("p", 0)], [("p", [["a"]])]⟩
      [("p", [["a"]]), ("q", [["a"]])]
      ⟨[⟨"r", "f", "q", ["?X"], [⟨"p", ["?X"], false⟩]⟩], [("q", 0), ("p", 0)], [("p", [["a"]]), ("q", [["a"]])]⟩
      rfl rfl rfl⟩

/-! ### Stratification (claim C1)

The proof proceeds in stages: membership characterisations of the
dependency collections, correctness of the depth-first search behind
`_find_neg_cycle_preds`, a potential argument showing that the
Gauss–Seidel iteration of `compute_strata` converges within its iteration
budget exactly on the rule sets without a cycle through negation, and the
characterisation of the raised error. -/

theorem mem_foldl_insertNew_map {α : Type} (f : α → String) :
    ∀ (l : List α) (acc : List String) (y : String),
      y ∈ l.foldl (fun acc2 a => insertNew acc2 (f a)) acc ↔ y ∈ acc ∨ ∃ a ∈ l, f a = y
  | [], acc, y => by simp
  | x :: xs, acc, y => by
    simp only [List.foldl_cons]
    rw [mem_foldl_insertNew_map f xs (insertNew acc (f x)) y, mem_insertNew]
    simp only [List.mem_cons]
    constructor
    · rintro (⟨h | h⟩ | ⟨a, ha, hf⟩)
      · exact Or.inl h
      · exact Or.inr ⟨x, Or.inl rfl, h.symm⟩
      · exact Or.inr ⟨a, Or.inr ha, hf⟩
    · rintro (h | ⟨a, (rfl | ha), hf⟩)
      · exact Or.inl (Or.inl h)
      · exact Or.inl (Or.inr hf.symm)
      · exact Or.inr ⟨a, ha, hf⟩

theorem mem_foldl_iff {α : Type} (P : α → String → Prop) (step : List String → α → List String)
    (hstep : ∀ acc x y, y ∈ step acc x ↔ y ∈ acc ∨ P x y) :
    ∀ (l : List α) (acc : List String) (y : String),
      y ∈ l.foldl step acc ↔ y ∈ acc ∨ ∃ x ∈ l, P x y
  | [], acc, y => by simp
  | x :: xs, acc, y => by
    simp only [List.foldl_cons]
    rw [mem_foldl_iff P step hstep xs (step acc x) y, hstep]
    simp only [List.mem_cons]
    constructor
    · rintro (⟨h | h⟩ | ⟨a, ha, hf⟩)
      · exact Or.inl h
      · exact Or.inr ⟨x, Or.inl rfl, h⟩
      · exact Or.inr ⟨a, Or.inr ha, hf⟩
    · rintro (h | ⟨a, (rfl | ha), hf⟩)
      · exact Or.inl (Or.inl h)
      · exact Or.inl (Or.inr hf)
      · exact Or.inr ⟨a, ha, hf⟩

theorem mem_rulePreds {rules : List Rule} {y : String} :
    y ∈ rulePreds rules ↔
      ∃ r ∈ rules, r.head_pred = y ∨
        ∃ a ∈ r.body, isBuiltinPred a.pred = false ∧ a.pred = y := by
  unfold rulePreds
  rw [mem_foldl_iff
    (fun r y => r.head_pred = y ∨ ∃ a ∈ r.body, isBuiltinPred a.pred = false ∧ a.pred = y)]
  · simp
  · intro acc r y
    rw [mem_foldl_insertNew_map Atom.pred, mem_insertNew]
    constructor
    · rintro (⟨h | h⟩ | ⟨a, ha, hf⟩)
      · exact Or.inl h
      · exact Or.inr (Or.inl h.symm)
      · rw [List.mem_filter] at ha
        exact Or.inr (Or.inr ⟨a, ha.1, by simpa using ha.2, hf⟩)
    · rintro (h | h | ⟨a, ha, hb, hf⟩)
      · exact Or.inl (Or.inl h)
      · exact Or.inl (Or.inr h.symm)
      · exact Or.inr ⟨a, List.mem_filter.mpr ⟨ha, by simpa using hb⟩, hf⟩

theorem mem_posDepsOf {rules : List Rule} {p y : String} :
    y ∈ posDepsOf rules p ↔
      ∃ r ∈ rules, r.head_pred = p ∧
        ∃ a ∈ r.body, isBuiltinPred a.pred = false ∧ a.negated = false ∧ a.pred = y := by
  unfold posDepsOf
  rw [mem_foldl_iff
    (fun r y => r.head_pred = p ∧
      ∃ a ∈ r.body, isBuiltinPred a.pred = false ∧ a.negated = false ∧ a.pred = y)]
  · simp
  · intro acc r y
    by_cases hh : r.head_pred = p
    · rw [if_pos hh]
      rw [mem_foldl_insertNew_map Atom.pred]
      constructor
      · rintro (h | ⟨a, ha, hf⟩)
        · exact Or.inl h
        · rw [List.mem_filter] at ha
          have hb := ha.2
          simp only [Bool.and_eq_true, Bool.not_eq_true'] at hb
          exact Or.inr ⟨hh, a, ha.1, by simpa using hb.1, hb.2, hf⟩
      · rintro (h | ⟨-, a, ha, hb, hn, hf⟩)
        · exact Or.inl h
        · refine Or.inr ⟨a, List.mem_filter.mpr ⟨ha, ?_⟩, hf⟩
          simp [hb, hn]
    · rw [if_neg hh]
      constructor
      · exact Or.inl
      · rintro (h | ⟨hh', -⟩)
        · exact h
        · exact absurd hh' hh

theorem mem_negDepsOf {rules : List Rule} {p y : String} :
    y ∈ negDepsOf rules p ↔
      ∃ r ∈ rules, r.head_pred = p ∧
        ∃ a ∈ r.body, isBuiltinPred a.pred = false ∧ a.negated = true ∧ a.pred = y := by
  unfold negDepsOf
  rw [mem_foldl_iff
    (fun r y => r.head_pred = p ∧
      ∃ a ∈ r.body, isBuiltinPred a.pred = false ∧ a.negated = true ∧ a.pred = y)]
  · simp
  · intro acc r y
    by_cases hh : r.head_pred = p
    · rw [if_pos hh]
      rw [mem_foldl_insertNew_map Atom.pred]
      constructor
      · rintro (h | ⟨a, ha, hf⟩)
        · exact Or.inl h
        · rw [List.mem_filter] at ha
          have hb := ha.2
          simp only [Bool.and_eq_true, Bool.not_eq_true'] at hb
          exact Or.inr ⟨hh, a, ha.1, by simpa using hb.1, hb.2, hf⟩
      · rintro (h | ⟨-, a, ha, hb, hn, hf⟩)
        · exact Or.inl h
        · refine Or.inr ⟨a, List.mem_filter.mpr ⟨ha, ?_⟩, hf⟩
          simp [hb, hn]
    · rw [if_neg hh]
      constructor
      · exact Or.inl
      · rintro (h | ⟨hh', -⟩)
        · exact h
        · exact absurd hh' hh

theorem mem_allDepsOf {rules : List Rule} {p y : String} :
    y ∈ allDepsOf rules p ↔ y ∈ posDepsOf rules p ∨ y ∈ negDepsOf rules p := by
  unfold allDepsOf
  exact mem_foldl_insertNew (negDepsOf rules p) (posDepsOf rules p) y

theorem posDepsOf_subset_preds {rules : List Rule} {p y : String}
    (h : y ∈ posDepsOf rules p) : y ∈ rulePreds rules := by
  obtain ⟨r, hr, -, a, ha, hb, -, hf⟩ := mem_posDepsOf.mp h
  exact mem_rulePreds.mpr ⟨r, hr, Or.inr ⟨a, ha, hb, hf⟩⟩

theorem negDepsOf_subset_preds {rules : List Rule} {p y : String}
    (h : y ∈ negDepsOf rules p) : y ∈ rulePreds rules := by
  obtain ⟨r, hr, -, a, ha, hb, -, hf⟩ := mem_negDepsOf.mp h
  exact mem_rulePreds.mpr ⟨r, hr, Or.inr ⟨a, ha, hb, hf⟩⟩

theorem posDepsOf_head_preds {rules : List Rule} {p y : String}
    (h : y ∈ posDepsOf rules p) : p ∈ rulePreds rules := by
  obtain ⟨r, hr, hh, -⟩ := mem_posDepsOf.mp h
  exact mem_rulePreds.mpr ⟨r, hr, Or.inl hh⟩

theorem negDepsOf_head_preds {rules : List Rule} {p y : String}
    (h : y ∈ negDepsOf rules p) : p ∈ rulePreds rules := by
  obtain ⟨r, hr, hh, -⟩ := mem_negDepsOf.mp h
  exact mem_rulePreds.mpr ⟨r, hr, Or.inl hh⟩

theorem allDepsOf_subset_preds {rules : List Rule} {p y : String}
    (h : y ∈ allDepsOf rules p) : y ∈ rulePreds rules := by
  rcases mem_allDepsOf.mp h with h' | h'
  · exact posDepsOf_subset_preds h'
  · exact negDepsOf_subset_preds h'

theorem nodup_insertNew {l : List String} {x : String} (h : l.Nodup) :
    (insertNew l x).Nodup := by
  unfold insertNew
  by_cases hx : x ∈ l
  · rw [if_pos hx]; exact h
  · rw [if_neg hx]
    simpa [List.nodup_append] using ⟨h, hx⟩

theorem nodup_foldl_insertNew_map {α : Type} (f : α → String) :
    ∀ (l : List α) (acc : List String), acc.Nodup →
      (l.foldl (fun acc2 a => insertNew acc2 (f a)) acc).Nodup
  | [], acc, h => h
  | x :: xs, acc, h => by
    simp only [List.foldl_cons]
    exact nodup_foldl_insertNew_map f xs _ (nodup_insertNew h)

theorem nodup_rulePreds (rules : List Rule) : (rulePreds rules).Nodup := by
  unfold rulePreds
  generalize hacc : ([] : List String) = acc
  have hn : acc.Nodup := by rw [← hacc]; exact List.nodup_nil
  clear hacc
  induction rules generalizing acc with
  | nil => exact hn
  | cons r rs ih =>
    simp only [List.foldl_cons]
    exact ih _ (nodup_foldl_insertNew_map Atom.pred _ _ (nodup_insertNew hn))

theorem dfs_sound (deps : String → List String) :
    ∀ (fuel : Nat) (stack vis : List String) (x : String),
      x ∈ dfsVisit deps fuel stack vis →
      x ∈ vis ∨ ∃ s ∈ stack, Relation.ReflTransGen (fun a b => b ∈ deps a) s x
  | 0, _, vis, x, h => Or.inl h
  | _ + 1, [], vis, x, h => Or.inl h
  | fuel + 1, node :: stack, vis, x, h => by
    have hred : dfsVisit deps (fuel + 1) (node :: stack) vis
        = if node ∈ vis then dfsVisit deps fuel stack vis
          else dfsVisit deps fuel (deps node ++ stack) (node :: vis) := rfl
    rw [hred] at h
    by_cases hnode : node ∈ vis
    · rw [if_pos hnode] at h
      rcases dfs_sound deps fuel stack vis x h with h' | ⟨s, hs, hr⟩
      · exact Or.inl h'
      · exact Or.inr ⟨s, List.mem_cons_of_mem _ hs, hr⟩
    · rw [if_neg hnode] at h
      rcases dfs_sound deps fuel (deps node ++ stack) (node :: vis) x h with h' | ⟨s, hs, hr⟩
      · rcases List.mem_cons.mp h' with rfl | h''
        · exact Or.inr ⟨x, List.mem_cons_self _ _, Relation.ReflTransGen.refl⟩
        · exact Or.inl h''
      · rcases List.mem_append.mp hs with hs' | hs'
        · exact Or.inr ⟨node, List.mem_cons_self _ _, Relation.ReflTransGen.head hs' hr⟩
        · exact Or.inr ⟨s, List.mem_cons_of_mem _ hs', hr⟩

theorem sum_filter_erase (w : String → Nat) :
    ∀ (preds vis : List String) (x : String),
      preds.Nodup → x ∈ preds → x ∉ vis →
      ((preds.filter (fun p => decide (p ∉ vis))).map w).sum =
        w x + ((preds.filter (fun p => decide (p ∉ x :: vis))).map w).sum
  | [], _, x, _, hx, _ => absurd hx (List.not_mem_nil x)
  | y :: rest, vis, x, hnd, hx, hxv => by
    obtain ⟨hyr, hndr⟩ := List.nodup_cons.mp hnd
    by_cases hyx : y = x
    · subst hyx
      have h1 : decide (y ∉ vis) = true := by simpa using hxv
      have h2 : decide (y ∉ y :: vis) = false := by simp
      rw [List.filter_cons, h1, List.filter_cons, h2]
      simp only [if_true, List.map_cons, List.sum_cons]
      have hcong : rest.filter (fun p => decide (p ∉ vis))
          = rest.filter (fun p => decide (p ∉ y :: vis)) := by
        apply List.filter_congr
        intro a ha
        have hay : a ≠ y := fun h => hyr (h ▸ ha)
        simp [hay]
      rw [hcong]
      simp
    · have hxr : x ∈ rest := by
        rcases List.mem_cons.mp hx with h | h
        · exact absurd h.symm hyx
        · exact h
      have ih := sum_filter_erase w rest vis x hndr hxr hxv
      by_cases hyv : y ∈ vis
      · have h1 : decide (y ∉ vis) = false := by simp [hyv]
        have h2 : decide (y ∉ x :: vis) = false := by simp [hyv]
        rw [List.filter_cons, h1, List.filter_cons, h2]
        simpa using ih
      · have h1 : decide (y ∉ vis) = true := by simp [hyv]
        have h2 : decide (y ∉ x :: vis) = true := by
          simp [List.mem_cons, hyv, hyx]
        rw [List.filter_cons, h1, List.filter_cons, h2]
        simp only [if_true, List.map_cons, List.sum_cons]
        omega

theorem dfs_spec (deps : String → List String) (preds : List String)
    (hdeps : ∀ x y, y ∈ deps x → y ∈ preds) (hnd : preds.Nodup) :
    ∀ (fuel : Nat) (stack vis : List String),
      dfsPot deps preds stack vis < fuel →
      (∀ x ∈ stack, x ∈ preds) →
      (∀ v ∈ vis, ∀ d ∈ deps v, d ∈ vis ∨ d ∈ stack) →
      (∀ x ∈ vis, x ∈ dfsVisit deps fuel stack vis) ∧
      (∀ x ∈ stack, x ∈ dfsVisit deps fuel stack vis) ∧
      (∀ v ∈ dfsVisit deps fuel stack vis, ∀ d ∈ deps v, d ∈ dfsVisit deps fuel stack vis)
  | 0, stack, vis, hpot, _, _ => absurd hpot (Nat.not_lt_zero _)
  | fuel + 1, [], vis, _, _, hvis => by
    refine ⟨fun x hx => hx, fun x hx => absurd hx (List.not_mem_nil x), ?_⟩
    intro v hv d hd
    rcases hvis v hv d hd with h | h
    · exact h
    · exact absurd h (List.not_mem_nil d)
  | fuel + 1, node :: stack, vis, hpot, hstack, hvis => by
    by_cases hnode : node ∈ vis
    · have hred : dfsVisit deps (fuel + 1) (node :: stack) vis = dfsVisit deps fuel stack vis := by
        show (if node ∈ vis then dfsVisit deps fuel stack vis
          else dfsVisit deps fuel (deps node ++ stack) (node :: vis)) = _
        rw [if_pos hnode]
      have hlen : dfsPot deps preds (node :: stack) vis = dfsPot deps preds stack vis + 1 := by
        simp only [dfsPot, List.length_cons]
        omega
      obtain ⟨h1, h2, h3⟩ := dfs_spec deps preds hdeps hnd fuel stack vis (by omega)
        (fun x hx => hstack x (List.mem_cons_of_mem _ hx))
        (fun v hv d hd => by
          rcases hvis v hv d hd with h | h
          · exact Or.inl h
          · rcases List.mem_cons.mp h with rfl | h'
            · exact Or.inl hnode
            · exact Or.inr h')
      rw [hred]
      refine ⟨h1, fun x hx => ?_, h3⟩
      rcases List.mem_cons.mp hx with rfl | h'
      · exact h1 x hnode
      · exact h2 x h'
    · have hred : dfsVisit deps (fuel + 1) (node :: stack) vis
          = dfsVisit deps fuel (deps node ++ stack) (node :: vis) := by
        show (if node ∈ vis then dfsVisit deps fuel stack vis
          else dfsVisit deps fuel (deps node ++ stack) (node :: vis)) = _
        rw [if_neg hnode]
      have hsum : ((preds.filter (fun p => decide (p ∉ vis))).map
            (fun p => (deps p).length + 1)).sum
          = (deps node).length + 1 + ((preds.filter (fun p => decide (p ∉ node :: vis))).map
            (fun p => (deps p).length + 1)).sum :=
        sum_filter_erase (fun p => (deps p).length + 1) preds vis node hnd
          (hstack node (List.mem_cons_self _ _)) hnode
      have hlen : dfsPot deps preds (node :: stack) vis
          = dfsPot deps preds (deps node ++ stack) (node :: vis) + 2 := by
        simp only [dfsPot, List.length_cons, List.length_append]
        omega
      obtain ⟨h1, h2, h3⟩ := dfs_spec deps preds hdeps hnd fuel
        (deps node ++ stack) (node :: vis) (by omega)
        (fun x hx => by
          rcases List.mem_append.mp hx with h | h
          · exact hdeps node x h
          · exact hstack x (List.mem_cons_of_mem _ h))
        (fun v hv d hd => by
          rcases List.mem_cons.mp hv with rfl | hv'
          · exact Or.inr (List.mem_append.mpr (Or.inl hd))
          · rcases hvis v hv' d hd with h | h
            · exact Or.inl (List.mem_cons_of_mem _ h)
            · rcases List.mem_cons.mp h with rfl | h'
              · exact Or.inl (List.mem_cons_self _ _)
              · exact Or.inr (List.mem_append.mpr (Or.inr h')))
      rw [hred]
      refine ⟨fun x hx => h1 x (List.mem_cons_of_mem _ hx), fun x hx => ?_, h3⟩
      rcases List.mem_cons.mp hx with rfl | h'
      · exact h1 x (List.mem_cons_self _ _)
      · exact h2 x (List.mem_append.mpr (Or.inr h'))

theorem stepPos_keep_true (p : String) : ∀ (ds : List String) (st : String → Nat),
    (stepPosDeps p ds st true).2 = true
  | [], _ => rfl
  | d :: rest, st => by
    simp only [stepPosDeps]
    split
    · exact stepPos_keep_true p rest _
    · exact stepPos_keep_true p rest st

theorem stepNeg_keep_true (p : String) : ∀ (ds : List String) (st : String → Nat),
    (stepNegDeps p ds st true).2 = true
  | [], _ => rfl
  | d :: rest, st => by
    simp only [stepNegDeps]
    split
    · exact stepNeg_keep_true p rest _
    · exact stepNeg_keep_true p rest st

theorem stepPos_false (p : String) : ∀ (ds : List String) (st : String → Nat) (ch : Bool),
    (stepPosDeps p ds st ch).2 = false →
      ch = false ∧ (stepPosDeps p ds st ch).1 = st ∧ ∀ d ∈ ds, st d ≤ st p
  | [], st, ch, h => ⟨h, rfl, fun d hd => absurd hd (List.not_mem_nil d)⟩
  | d :: rest, st, ch, h => by
    simp only [stepPosDeps] at h ⊢
    by_cases hlt : st p < st d
    · rw [if_pos hlt] at h
      rw [stepPos_keep_true p rest _] at h
      exact Bool.noConfusion h
    · rw [if_neg hlt] at h
      obtain ⟨hch, hst, hrest⟩ := stepPos_false p rest st ch h
      rw [if_neg hlt]
      refine ⟨hch, hst, fun d' hd' => ?_⟩
      rcases List.mem_cons.mp hd' with rfl | hd''
      · omega
      · exact hrest d' hd''

theorem stepNeg_false (p : String) : ∀ (ds : List String) (st : String → Nat) (ch : Bool),
    (stepNegDeps p ds st ch).2 = false →
      ch = false ∧ (stepNegDeps p ds st ch).1 = st ∧ ∀ d ∈ ds, st d + 1 ≤ st p
  | [], st, ch, h => ⟨h, rfl, fun d hd => absurd hd (List.not_mem_nil d)⟩
  | d :: rest, st, ch, h => by
    simp only [stepNegDeps] at h ⊢
    by_cases hlt : st p < st d + 1
    · rw [if_pos hlt] at h
      rw [stepNeg_keep_true p rest _] at h
      exact Bool.noConfusion h
    · rw [if_neg hlt] at h
      obtain ⟨hch, hst, hrest⟩ := stepNeg_false p rest st ch h
      rw [if_neg hlt]
      refine ⟨hch, hst, fun d' hd' => ?_⟩
      rcases List.mem_cons.mp hd' with rfl | hd''
      · omega
      · exact hrest d' hd''

theorem stepPos_mono (p : String) : ∀ (ds : List String) (st : String → Nat) (ch : Bool)
    (x : String), st x ≤ (stepPosDeps p ds st ch).1 x
  | [], _, _, _ => le_refl _
  | d :: rest, st, ch, x => by
    simp only [stepPosDeps]
    split
    · rename_i hlt
      refine le_trans ?_ (stepPos_mono p rest _ true x)
      show st x ≤ if x = p then st d else st x
      by_cases hx : x = p
      · subst hx; rw [if_pos rfl]; omega
      · rw [if_neg hx]
    · exact stepPos_mono p rest st ch x

theorem stepNeg_mono (p : String) : ∀ (ds : List String) (st : String → Nat) (ch : Bool)
    (x : String), st x ≤ (stepNegDeps p ds st ch).1 x
  | [], _, _, _ => le_refl _
  | d :: rest, st, ch, x => by
    simp only [stepNegDeps]
    split
    · rename_i hlt
      refine le_trans ?_ (stepNeg_mono p rest _ true x)
      show st x ≤ if x = p then st d + 1 else st x
      by_cases hx : x = p
      · subst hx; rw [if_pos rfl]; omega
      · rw [if_neg hx]
    · exact stepNeg_mono p rest st ch x

theorem stepPos_only (p : String) : ∀ (ds : List String) (st : String → Nat) (ch : Bool)
    (x : String), x ≠ p → (stepPosDeps p ds st ch).1 x = st x
  | [], _, _, _, _ => rfl
  | d :: rest, st, ch, x, hx => by
    simp only [stepPosDeps]
    split
    · rw [stepPos_only p rest _ true x hx]
      show (if x = p then st d else st x) = st x
      rw [if_neg hx]
    · exact stepPos_only p rest st ch x hx

theorem stepNeg_only (p : String) : ∀ (ds : List String) (st : String → Nat) (ch : Bool)
    (x : String), x ≠ p → (stepNegDeps p ds st ch).1 x = st x
  | [], _, _, _, _ => rfl
  | d :: rest, st, ch, x, hx => by
    simp only [stepNegDeps]
    split
    · rw [stepNeg_only p rest _ true x hx]
      show (if x = p then st d + 1 else st x) = st x
      rw [if_neg hx]
    · exact stepNeg_only p rest st ch x hx

theorem stepPos_incr (p : String) : ∀ (ds : List String) (st : String → Nat) (ch : Bool),
    (stepPosDeps p ds st ch).2 = true → ch = true ∨ st p < (stepPosDeps p ds st ch).1 p
  | [], st, ch, h => Or.inl h
  | d :: rest, st, ch, h => by
    simp only [stepPosDeps] at h ⊢
    by_cases hlt : st p < st d
    · rw [if_pos hlt] at h ⊢
      have hm := stepPos_mono p rest (fun y => if y = p then st d else st y) true p
      have hm' : st d ≤ (stepPosDeps p rest (fun y => if y = p then st d else st y) true).1 p := by
        simpa using hm
      exact Or.inr (lt_of_lt_of_le hlt hm')
    · rw [if_neg hlt] at h ⊢
      exact stepPos_incr p rest st ch h

theorem stepNeg_incr (p : String) : ∀ (ds : List String) (st : String → Nat) (ch : Bool),
    (stepNegDeps p ds st ch).2 = true → ch = true ∨ st p < (stepNegDeps p ds st ch).1 p
  | [], st, ch, h => Or.inl h
  | d :: rest, st, ch, h => by
    simp only [stepNegDeps] at h ⊢
    by_cases hlt : st p < st d + 1
    · rw [if_pos hlt] at h ⊢
      have hm := stepNeg_mono p rest (fun y => if y = p then st d + 1 else st y) true p
      have hm' : st d + 1 ≤ (stepNegDeps p rest (fun y => if y = p then st d + 1 else st y) true).1 p := by
        simpa using hm
      exact Or.inr (lt_of_lt_of_le hlt hm')
    · rw [if_neg hlt] at h ⊢
      exact stepNeg_incr p rest st ch h

theorem stepPos_le_star (p : String) (star : String → Nat) :
    ∀ (ds : List String) (st : String → Nat) (ch : Bool),
      (∀ d ∈ ds, star d ≤ star p) → (∀ x, st x ≤ star x) →
      ∀ x, (stepPosDeps p ds st ch).1 x ≤ star x
  | [], st, ch, _, hle, x => hle x
  | d :: rest, st, ch, hds, hle, x => by
    simp only [stepPosDeps]
    split
    · refine stepPos_le_star p star rest _ true
        (fun d' hd' => hds d' (List.mem_cons_of_mem _ hd')) (fun y => ?_) x
      show (if y = p then st d else st y) ≤ star y
      by_cases hy : y = p
      · subst hy
        rw [if_pos rfl]
        exact le_trans (hle d) (hds d (List.mem_cons_self _ _))
      · rw [if_neg hy]
        exact hle y
    · exact stepPos_le_star p star rest st ch
        (fun d' hd' => hds d' (List.mem_cons_of_mem _ hd')) hle x

theorem stepNeg_le_star (p : String) (star : String → Nat) :
    ∀ (ds : List String) (st : String → Nat) (ch : Bool),
      (∀ d ∈ ds, star d + 1 ≤ star p) → (∀ x, st x ≤ star x) →
      ∀ x, (stepNegDeps p ds st ch).1 x ≤ star x
  | [], st, ch, _, hle, x => hle x
  | d :: rest, st, ch, hds, hle, x => by
    simp only [stepNegDeps]
    split
    · refine stepNeg_le_star p star rest _ true
        (fun d' hd' => hds d' (List.mem_cons_of_mem _ hd')) (fun y => ?_) x
      show (if y = p then st d + 1 else st y) ≤ star y
      by_cases hy : y = p
      · subst hy
        rw [if_pos rfl]
        have h1 := hle d
        have h2 := hds d (List.mem_cons_self _ _)
        omega
      · rw [if_neg hy]
        exact hle y
    · exact stepNeg_le_star p star rest st ch
        (fun d' hd' => hds d' (List.mem_cons_of_mem _ hd')) hle x

theorem sweep_cons (pos neg : String → List String) (p : String) (rest : List String)
    (st : String → Nat) (ch : Bool) :
    sweepPreds pos neg (p :: rest) st ch =
      sweepPreds pos neg rest
        (stepNegDeps p (neg p) (stepPosDeps p (pos p) st ch).1 (stepPosDeps p (pos p) st ch).2).1
        (stepNegDeps p (neg p) (stepPosDeps p (pos p) st ch).1 (stepPosDeps p (pos p) st ch).2).2 :=
  rfl

theorem sweep_mono (pos neg : String → List String) : ∀ (preds : List String)
    (st : String → Nat) (ch : Bool) (x : String), st x ≤ (sweepPreds pos neg preds st ch).1 x
  | [], _, _, _ => le_refl _
  | p :: rest, st, ch, x => by
    rw [sweep_cons]
    refine le_trans (stepPos_mono p (pos p) st ch x)
      (le_trans (stepNeg_mono p (neg p) (stepPosDeps p (pos p) st ch).1
        (stepPosDeps p (pos p) st ch).2 x) ?_)
    exact sweep_mono pos neg rest _ _ x

theorem sweep_false (pos neg : String → List String) : ∀ (preds : List String)
    (st : String → Nat) (ch : Bool),
    (sweepPreds pos neg preds st ch).2 = false →
      ch = false ∧ (sweepPreds pos neg preds st ch).1 = st ∧
        ∀ p ∈ preds, (∀ d ∈ pos p, st d ≤ st p) ∧ ∀ d ∈ neg p, st d + 1 ≤ st p
  | [], st, ch, h => ⟨h, rfl, fun p hp => absurd hp (List.not_mem_nil p)⟩
  | p :: rest, st, ch, h => by
    rw [sweep_cons] at h
    have hall := sweep_false pos neg rest _ _ h
    obtain ⟨h1, -, -⟩ := stepNeg_false p (neg p) _ _ hall.1
    obtain ⟨hch, hpeq, hposc⟩ := stepPos_false p (pos p) st ch h1
    subst hch
    rw [hpeq, h1] at h
    obtain ⟨h2, hst, hrest⟩ := sweep_false pos neg rest _ _ h
    obtain ⟨-, hneq, hnegc⟩ := stepNeg_false p (neg p) st false h2
    rw [hneq] at hst hrest
    refine ⟨rfl, ?_, ?_⟩
    · rw [sweep_cons, hpeq, h1, hneq]
      exact hst
    · intro p' hp'
      rcases List.mem_cons.mp hp' with rfl | hp''
      · exact ⟨hposc, hnegc⟩
      · exact hrest p' hp''

theorem sweep_le_star (pos neg : String → List String) (star : String → Nat)
    (hstar : ∀ p, (∀ d ∈ pos p, star d ≤ star p) ∧ ∀ d ∈ neg p, star d + 1 ≤ star p) :
    ∀ (preds : List String) (st : String → Nat) (ch : Bool),
      (∀ x, st x ≤ star x) → ∀ x, (sweepPreds pos neg preds st ch).1 x ≤ star x
  | [], st, ch, hle, x => hle x
  | p :: rest, st, ch, hle, x => by
    rw [sweep_cons]
    refine sweep_le_star pos neg star hstar rest _ _ (fun y => ?_) x
    exact stepNeg_le_star p star (neg p) _ _ (hstar p).2
      (stepPos_le_star p star (pos p) st ch (hstar p).1 hle) y

theorem sweep_sum_lt (pos neg : String → List String) : ∀ (preds : List String),
    preds.Nodup → ∀ (st : String → Nat),
    (sweepPreds pos neg preds st false).2 = true →
      (preds.map st).sum < (preds.map (sweepPreds pos neg preds st false).1).sum
  | [], _, st, h => Bool.noConfusion h
  | p :: rest, hnd, st, h => by
    obtain ⟨hpr, hndr⟩ := List.nodup_cons.mp hnd
    rw [sweep_cons] at h ⊢
    set s1 := stepPosDeps p (pos p) st false with hs1def
    set s2 := stepNegDeps p (neg p) s1.1 s1.2 with hs2def
    by_cases hb : s2.2 = true
    · have hscp : st p < s2.1 p := by
        by_cases h1 : s1.2 = true
        · rcases stepPos_incr p (pos p) st false h1 with hc | hlt
          · exact Bool.noConfusion hc
          · exact lt_of_lt_of_le hlt (stepNeg_mono p (neg p) s1.1 s1.2 p)
        · have h1' : s1.2 = false := by
            revert h1; cases s1.2 <;> simp
          obtain ⟨-, hpeq, -⟩ := stepPos_false p (pos p) st false h1'
          rcases stepNeg_incr p (neg p) s1.1 s1.2 hb with hc | hlt
          · rw [h1'] at hc; exact Bool.noConfusion hc
          · rw [hs2def, hpeq]
            rw [hpeq] at hlt
            exact hlt
      have hmono := sweep_mono pos neg rest s2.1 s2.2
      have hhead : st p < (sweepPreds pos neg rest s2.1 s2.2).1 p :=
        lt_of_lt_of_le hscp (hmono p)
      have htail : (rest.map st).sum ≤ (rest.map (sweepPreds pos neg rest s2.1 s2.2).1).sum := by
        apply List.sum_le_sum
        intro x hx
        have hxp : x ≠ p := fun he => hpr (he ▸ hx)
        have hx1 : s2.1 x = st x := by
          rw [hs2def, stepNeg_only p (neg p) s1.1 s1.2 x hxp,
            hs1def, stepPos_only p (pos p) st false x hxp]
        calc st x = s2.1 x := hx1.symm
          _ ≤ _ := hmono x
      simp only [List.map_cons, List.sum_cons]
      omega
    · have hb' : s2.2 = false := by
        revert hb; cases s2.2 <;> simp
      obtain ⟨h1, hneq, -⟩ := stepNeg_false p (neg p) s1.1 s1.2 hb'
      obtain ⟨-, hpeq, -⟩ := stepPos_false p (pos p) st false h1
      have hs21 : s2.1 = st := by rw [hneq, hpeq]
      rw [hs21, hb'] at h ⊢
      have ih := sweep_sum_lt pos neg rest hndr st h
      simp only [List.map_cons, List.sum_cons]
      have hheadle : st p ≤ (sweepPreds pos neg rest st false).1 p :=
        sweep_mono pos neg rest st false p
      omega

theorem csLoop_cons_red (pos neg : String → List String) (preds : List String)
    (fuel : Nat) (st : String → Nat) :
    csLoop pos neg preds (fuel + 1) st =
      if (sweepPreds pos neg preds st false).2 = true then
        csLoop pos neg preds fuel (sweepPreds pos neg preds st false).1
      else ((sweepPreds pos neg preds st false).1, fuel == 0) :=
  rfl

theorem csLoop_false (pos neg : String → List String) (preds : List String) :
    ∀ (fuel : Nat) (st : String → Nat),
      (csLoop pos neg preds fuel st).2 = false →
      ∀ p ∈ preds,
        (∀ d ∈ pos p, (csLoop pos neg preds fuel st).1 d ≤ (csLoop pos neg preds fuel st).1 p) ∧
        ∀ d ∈ neg p, (csLoop pos neg preds fuel st).1 d + 1 ≤ (csLoop pos neg preds fuel st).1 p
  | 0, st, h => Bool.noConfusion h
  | fuel + 1, st, h => by
    rw [csLoop_cons_red] at h ⊢
    by_cases hs : (sweepPreds pos neg preds st false).2 = true
    · rw [if_pos hs] at h ⊢
      exact csLoop_false pos neg preds fuel _ h
    · rw [if_neg hs] at h ⊢
      have hs' : (sweepPreds pos neg preds st false).2 = false := by
        revert hs; cases (sweepPreds pos neg preds st false).2 <;> simp
      obtain ⟨-, hfix, hconstr⟩ := sweep_false pos neg preds st false hs'
      intro p hp
      refine ⟨fun d hd => ?_, fun d hd => ?_⟩
      · show (sweepPreds pos neg preds st false).1 d ≤ (sweepPreds pos neg preds st false).1 p
        rw [hfix]
        exact (hconstr p hp).1 d hd
      · show (sweepPreds pos neg preds st false).1 d + 1 ≤ (sweepPreds pos neg preds st false).1 p
        rw [hfix]
        exact (hconstr p hp).2 d hd

theorem csLoop_conv (pos neg : String → List String) (preds : List String)
    (hnd : preds.Nodup) (star : String → Nat)
    (hstar : ∀ p, (∀ d ∈ pos p, star d ≤ star p) ∧ ∀ d ∈ neg p, star d + 1 ≤ star p) :
    ∀ (fuel : Nat) (st : String → Nat), (∀ x, st x ≤ star x) →
      (preds.map star).sum + 2 ≤ (preds.map st).sum + fuel →
      (csLoop pos neg preds fuel st).2 = false
  | 0, st, hle, hfuel => by
    exfalso
    have hsum : (preds.map st).sum ≤ (preds.map star).sum :=
      List.sum_le_sum (fun x _ => hle x)
    omega
  | fuel + 1, st, hle, hfuel => by
    rw [csLoop_cons_red]
    by_cases hs : (sweepPreds pos neg preds st false).2 = true
    · rw [if_pos hs]
      refine csLoop_conv pos neg preds hnd star hstar fuel _
        (sweep_le_star pos neg star hstar preds st false hle) ?_
      have hlt := sweep_sum_lt pos neg preds hnd st hs
      omega
    · rw [if_neg hs]
      show (fuel == 0) = false
      have hne : fuel ≠ 0 := by
        intro h0
        subst h0
        have hsum : (preds.map st).sum ≤ (preds.map star).sum :=
          List.sum_le_sum (fun x _ => hle x)
        omega
      simp [hne]

theorem reachableFrom_spec {rules : List Rule} {q x : String} (hq : q ∈ rulePreds rules) :
    x ∈ reachableFrom rules q ↔ Reaches rules q x := by
  constructor
  · intro h
    rcases dfs_sound (allDepsOf rules) (depsFuel rules) [q] [] x h with h' | ⟨s, hs, hr⟩
    · exact absurd h' (List.not_mem_nil x)
    · rcases List.mem_singleton.mp hs with rfl
      exact hr
  · intro h
    have hfilter : (rulePreds rules).filter (fun p => decide (p ∉ ([] : List String)))
        = rulePreds rules := by
      simp
    have hpotlt : dfsPot (allDepsOf rules) (rulePreds rules) [q] [] < depsFuel rules := by
      simp only [dfsPot, depsFuel, List.length_singleton, hfilter]
      omega
    obtain ⟨h1, h2, h3⟩ := dfs_spec (allDepsOf rules) (rulePreds rules)
      (fun a y hy => allDepsOf_subset_preds hy) (nodup_rulePreds rules)
      (depsFuel rules) [q] [] hpotlt
      (fun y hy => by rcases List.mem_singleton.mp hy with rfl; exact hq)
      (fun v hv => absurd hv (List.not_mem_nil v))
    induction h with
    | refl => exact h2 q (List.mem_singleton.mpr rfl)
    | tail _ hbc ih => exact h3 _ ih _ hbc

theorem allDepsOf_head_preds {rules : List Rule} {p y : String}
    (h : y ∈ allDepsOf rules p) : p ∈ rulePreds rules := by
  rcases mem_allDepsOf.mp h with h' | h'
  · exact posDepsOf_head_preds h'
  · exact negDepsOf_head_preds h'

theorem mem_NRset {rules : List Rule} {p x : String} :
    x ∈ NRset rules p ↔
      x ∈ rulePreds rules ∧ x ∈ reachableFrom rules p ∧ negDepsOf rules x ≠ [] := by
  unfold NRset
  rw [List.mem_toFinset, List.mem_filter]
  simp [decide_eq_true_eq]

theorem NRset_mono {rules : List Rule} {p q : String} (hq : q ∈ allDepsOf rules p) :
    NRset rules q ⊆ NRset rules p := by
  intro x hx
  obtain ⟨hxp, hxr, hxn⟩ := mem_NRset.mp hx
  have hqp : q ∈ rulePreds rules := allDepsOf_subset_preds hq
  have hpp : p ∈ rulePreds rules := allDepsOf_head_preds hq
  refine mem_NRset.mpr ⟨hxp, ?_, hxn⟩
  rw [reachableFrom_spec hpp]
  exact Relation.ReflTransGen.head hq ((reachableFrom_spec hqp).mp hxr)

theorem nrStar_constraints {rules : List Rule} (hnc : ¬ HasNegCycle rules) (p : String) :
    (∀ d ∈ posDepsOf rules p, (NRset rules d).card ≤ (NRset rules p).card) ∧
      ∀ d ∈ negDepsOf rules p, (NRset rules d).card + 1 ≤ (NRset rules p).card := by
  constructor
  · intro d hd
    exact Finset.card_le_card (NRset_mono (mem_allDepsOf.mpr (Or.inl hd)))
  · intro d hd
    have hsub := NRset_mono (mem_allDepsOf.mpr (Or.inr hd))
    have hpp : p ∈ rulePreds rules := negDepsOf_head_preds hd
    have hpmem : p ∈ NRset rules p :=
      mem_NRset.mpr ⟨hpp, (reachableFrom_spec hpp).mpr Relation.ReflTransGen.refl,
        List.ne_nil_of_mem hd⟩
    have hpnot : p ∉ NRset rules d := by
      intro hmem
      obtain ⟨-, hr, -⟩ := mem_NRset.mp hmem
      exact hnc ⟨p, d, hd, (reachableFrom_spec (negDepsOf_subset_preds hd)).mp hr⟩
    have hss : NRset rules d ⊂ NRset rules p :=
      (Finset.ssubset_iff_of_subset hsub).mpr ⟨p, hpmem, hpnot⟩
    exact Finset.card_lt_card hss

theorem NRset_card_le (rules : List Rule) (p : String) :
    (NRset rules p).card ≤ (rulePreds rules).length := by
  have hsub : NRset rules p ⊆ (rulePreds rules).toFinset := by
    intro x hx
    rw [List.mem_toFinset]
    exact (mem_NRset.mp hx).1
  exact le_trans (Finset.card_le_card hsub) (List.toFinset_card_le _)

theorem nrStar_sum_le (rules : List Rule) :
    ((rulePreds rules).map (fun p => (NRset rules p).card)).sum
      ≤ (rulePreds rules).length * (rulePreds rules).length := by
  have hb : ∀ x ∈ (rulePreds rules).map (fun p => (NRset rules p).card),
      x ≤ (rulePreds rules).length := by
    intro x hx
    obtain ⟨p, -, rfl⟩ := List.mem_map.mp hx
    exact NRset_card_le rules p
  have hs := List.sum_le_card_nsmul _ _ hb
  simpa [smul_eq_mul] using hs

theorem strataGet_map (f : String → Nat) : ∀ (l : List String) (x : String), x ∈ l →
    strataGet (l.map (fun p => (p, f p))) x = f x
  | [], x, hx => absurd hx (List.not_mem_nil x)
  | p :: rest, x, hx => by
    simp only [List.map_cons, strataGet]
    by_cases hpx : p = x
    · rw [if_pos hpx, hpx]
    · rw [if_neg hpx]
      rcases List.mem_cons.mp hx with rfl | hx'
      · exact absurd rfl hpx
      · exact strataGet_map f rest x hx'

theorem constraints_no_negcycle {rules : List Rule} (st : String → Nat)
    (hc : ∀ p ∈ rulePreds rules,
      (∀ d ∈ posDepsOf rules p, st d ≤ st p) ∧ ∀ d ∈ negDepsOf rules p, st d + 1 ≤ st p) :
    ¬ HasNegCycle rules := by
  rintro ⟨p, q, hneg, hreach⟩
  have hedge : ∀ a b, depEdge rules a b → st b ≤ st a := by
    intro a b hab
    rcases mem_allDepsOf.mp hab with h | h
    · exact (hc a (posDepsOf_head_preds h)).1 b h
    · have := (hc a (negDepsOf_head_preds h)).2 b h
      omega
  have hmono : ∀ a b, Reaches rules a b → st b ≤ st a := by
    intro a b hr
    induction hr with
    | refl => exact le_refl _
    | tail _ hbc ih => exact le_trans (hedge _ _ hbc) ih
  have h1 : st p ≤ st q := hmono q p hreach
  have h2 := (hc p (negDepsOf_head_preds hneg)).2 q hneg
  omega

theorem ncInner_mono (rules : List Rule) (p : String) :
    ∀ (ds acc : List String) (y : String), y ∈ acc →
      y ∈ ds.foldl (fun acc2 q =>
        if p ∈ reachableFrom rules q then insertNew (insertNew acc2 p) q else acc2) acc
  | [], _, _, hy => hy
  | d :: rest, acc, y, hy => by
    simp only [List.foldl_cons]
    refine ncInner_mono rules p rest _ y ?_
    split
    · exact mem_insertNew.mpr (Or.inl (mem_insertNew.mpr (Or.inl hy)))
    · exact hy

theorem ncInner_trigger (rules : List Rule) (p : String) :
    ∀ (ds acc : List String) (q : String), q ∈ ds → p ∈ reachableFrom rules q →
      p ∈ ds.foldl (fun acc2 q' =>
          if p ∈ reachableFrom rules q' then insertNew (insertNew acc2 p) q' else acc2) acc ∧
      q ∈ ds.foldl (fun acc2 q' =>
          if p ∈ reachableFrom rules q' then insertNew (insertNew acc2 p) q' else acc2) acc
  | [], _, q, hq, _ => absurd hq (List.not_mem_nil q)
  | d :: rest, acc, q, hq, hr => by
    simp only [List.foldl_cons]
    rcases List.mem_cons.mp hq with rfl | hq'
    · rw [if_pos hr]
      constructor
      · exact ncInner_mono rules p rest _ _
          (mem_insertNew.mpr (Or.inl (mem_insertNew.mpr (Or.inr rfl))))
      · exact ncInner_mono rules p rest _ _ (mem_insertNew.mpr (Or.inr rfl))
    · exact ncInner_trigger rules p rest _ q hq' hr

theorem ncOuter_mono (rules : List Rule) :
    ∀ (ps acc : List String) (y : String), y ∈ acc →
      y ∈ ps.foldl (fun a p =>
        (negDepsOf rules p).foldl (fun acc2 q =>
          if p ∈ reachableFrom rules q then insertNew (insertNew acc2 p) q else acc2) a) acc
  | [], _, _, hy => hy
  | a :: rest, acc, y, hy => by
    simp only [List.foldl_cons]
    exact ncOuter_mono rules rest _ y (ncInner_mono rules a _ _ y hy)

theorem ncOuter_trigger (rules : List Rule) :
    ∀ (ps acc : List String) (p q : String), p ∈ ps → q ∈ negDepsOf rules p →
      p ∈ reachableFrom rules q →
      p ∈ ps.foldl (fun a p' =>
          (negDepsOf rules p').foldl (fun acc2 q' =>
            if p' ∈ reachableFrom rules q' then insertNew (insertNew acc2 p') q' else acc2) a) acc ∧
      q ∈ ps.foldl (fun a p' =>
          (negDepsOf rules p').foldl (fun acc2 q' =>
            if p' ∈ reachableFrom rules q' then insertNew (insertNew acc2 p') q' else acc2) a) acc
  | [], _, p, _, hp, _, _ => absurd hp (List.not_mem_nil p)
  | a :: rest, acc, p, q, hp, hq, hr => by
    simp only [List.foldl_cons]
    rcases List.mem_cons.mp hp with rfl | hp'
    · have hin := ncInner_trigger rules p (negDepsOf rules p) acc q hq hr
      exact ⟨ncOuter_mono rules rest _ _ hin.1, ncOuter_mono rules rest _ _ hin.2⟩
    · exact ncOuter_trigger rules rest _ p q hp' hq hr

theorem findNegCyclePreds_contains {rules : List Rule} {p q : String}
    (hq : q ∈ negDepsOf rules p) (hr : p ∈ reachableFrom rules q) :
    p ∈ findNegCyclePreds rules ∧ q ∈ findNegCyclePreds rules := by
  have hp : p ∈ rulePreds rules := negDepsOf_head_preds hq
  have hmain := ncOuter_trigger rules (rulePreds rules) [] p q hp hq hr
  unfold findNegCyclePreds
  exact ⟨(mem_insSort _).mpr hmain.1, (mem_insSort _).mpr hmain.2⟩

theorem csLoop_flag_iff (rules : List Rule) :
    (csLoop (posDepsOf rules) (negDepsOf rules) (rulePreds rules)
        ((rulePreds rules).length * (rulePreds rules).length + (rulePreds rules).length + 2)
        (fun _ => 0)).2 = true
      ↔ HasNegCycle rules := by
  constructor
  · intro hflag
    by_contra hnc
    have hsum1 := nrStar_sum_le rules
    have hsum0 : ((rulePreds rules).map (fun _ => 0)).sum = 0 := by simp
    have hconv := csLoop_conv (posDepsOf rules) (negDepsOf rules) (rulePreds rules)
      (nodup_rulePreds rules) (fun p => (NRset rules p).card)
      (nrStar_constraints hnc)
      ((rulePreds rules).length * (rulePreds rules).length + (rulePreds rules).length + 2)
      (fun _ => 0) (fun x => Nat.zero_le _)
      (by
        generalize hnn : (rulePreds rules).length * (rulePreds rules).length = m at hsum1 ⊢
        omega)
    rw [hconv] at hflag
    exact Bool.noConfusion hflag
  · intro hcyc
    by_contra hflag
    have hflag' : (csLoop (posDepsOf rules) (negDepsOf rules) (rulePreds rules)
        ((rulePreds rules).length * (rulePreds rules).length + (rulePreds rules).length + 2)
        (fun _ => 0)).2 = false := by
      revert hflag
      cases (csLoop (posDepsOf rules) (negDepsOf rules) (rulePreds rules)
        ((rulePreds rules).length * (rulePreds rules).length + (rulePreds rules).length + 2)
        (fun _ => 0)).2 <;> simp
    have hcon := csLoop_false (posDepsOf rules) (negDepsOf rules) (rulePreds rules) _ _ hflag'
    exact constraints_no_negcycle _ hcon hcyc

/-- Claim C1: `compute_strata` always terminates with a definite outcome.
If the predicate dependency graph has no cycle through a negative edge, it
returns a stratum assignment that is total on the predicates of the rules
and satisfies `stratum[q] ≤ stratum[p]` for every positive dependency of
`p` on `q` and `stratum[q] < stratum[p]` for every negative one.  If such
a cycle exists it raises the error instead, and the error names predicates
`p`, `q` with `p` negatively depending on `q` and `p` reachable from `q`
through any edges.  Thus it rejects exactly the non-stratifiable rule
sets. -/
theorem c1_compute_strata (rules : List Rule) :
    match compute_strata rules with
    | Except.ok strata =>
        ¬ HasNegCycle rules
          ∧ (∀ p ∈ rulePreds rules, (p, strataGet strata p) ∈ strata)
          ∧ (∀ p q, posEdge rules p q → strataGet strata q ≤ strataGet strata p)
          ∧ (∀ p q, negEdge rules p q → strataGet strata q < strataGet strata p)
    | Except.error cyc =>
        HasNegCycle rules ∧
          ∃ p ∈ cyc, ∃ q ∈ cyc, negEdge rules p q ∧ Reaches rules q p := by
  cases hcs : compute_strata rules with
  | error cyc =>
    show HasNegCycle rules ∧ ∃ p ∈ cyc, ∃ q ∈ cyc, negEdge rules p q ∧ Reaches rules q p
    unfold compute_strata at hcs
    dsimp only at hcs
    split at hcs
    case isTrue hflag =>
      injection hcs with hcs'
      have hcyc : HasNegCycle rules := (csLoop_flag_iff rules).mp hflag
      obtain ⟨p, q, hneg, hreach⟩ := hcyc
      have hqpred : q ∈ rulePreds rules := negDepsOf_subset_preds hneg
      have hrF : p ∈ reachableFrom rules q := (reachableFrom_spec hqpred).mpr hreach
      have hmem := findNegCyclePreds_contains hneg hrF
      subst hcs'
      exact ⟨⟨p, q, hneg, hreach⟩, p, hmem.1, q, hmem.2, hneg, hreach⟩
    case isFalse hflag =>
      exact Except.noConfusion hcs
  | ok strata =>
    show ¬ HasNegCycle rules
      ∧ (∀ p ∈ rulePreds rules, (p, strataGet strata p) ∈ strata)
      ∧ (∀ p q, posEdge rules p q → strataGet strata q ≤ strataGet strata p)
      ∧ (∀ p q, negEdge rules p q → strataGet strata q < strataGet strata p)
    unfold compute_strata at hcs
    dsimp only at hcs
    split at hcs
    case isTrue hflag =>
      exact Except.noConfusion hcs
    case isFalse hflag =>
      injection hcs with hcs'
      have hflag' : (csLoop (posDepsOf rules) (negDepsOf rules) (rulePreds rules)
          ((rulePreds rules).length * (rulePreds rules).length + (rulePreds rules).length + 2)
          (fun _ => 0)).2 = false := by
        revert hflag
        cases (csLoop (posDepsOf rules) (negDepsOf rules) (rulePreds rules)
          ((rulePreds rules).length * (rulePreds rules).length + (rulePreds rules).length + 2)
          (fun _ => 0)).2 <;> simp
      have hnc : ¬ HasNegCycle rules := fun hc => hflag ((csLoop_flag_iff rules).mpr hc)
      have hcon := csLoop_false (posDepsOf rules) (negDepsOf rules) (rulePreds rules) _ _ hflag'
      subst hcs'
      refine ⟨hnc, ?_, ?_, ?_⟩
      · intro p hp
        rw [strataGet_map _ _ p hp]
        exact List.mem_map.mpr ⟨p, hp, rfl⟩
      · intro p q hpq
        have hp : p ∈ rulePreds rules := posDepsOf_head_preds hpq
        have hq : q ∈ rulePreds rules := posDepsOf_subset_preds hpq
        rw [strataGet_map _ _ q hq, strataGet_map _ _ p hp]
        exact (hcon p hp).1 q hpq
      · intro p q hpq
        have hp : p ∈ rulePreds rules := negDepsOf_head_preds hpq
        have hq : q ∈ rulePreds rules := negDepsOf_subset_preds hpq
        rw [strataGet_map _ _ q hq, strataGet_map _ _ p hp]
        exact (hcon p hp).2 q hpq

/-! ### Fixed-point idempotence of the evaluator (claim C9) -/

theorem compute_strata_ok_constraints {rules : List Rule} {st : List (String × Nat)}
    (h : compute_strata rules = Except.ok st) :
    (∀ p q, posEdge rules p q → strataGet st q ≤ strataGet st p) ∧
    (∀ p q, negEdge rules p q → strataGet st q < strataGet st p) := by
  unfold compute_strata at h
  dsimp only at h
  split at h
  case isTrue hflag => exact Except.noConfusion h
  case isFalse hflag =>
    injection h with h'
    have hflag' : (csLoop (posDepsOf rules) (negDepsOf rules) (rulePreds rules)
        ((rulePreds rules).length * (rulePreds rules).length + (rulePreds rules).length + 2)
        (fun _ => 0)).2 = false := by
      revert hflag
      cases (csLoop (posDepsOf rules) (negDepsOf rules) (rulePreds rules)
        ((rulePreds rules).length * (rulePreds rules).length + (rulePreds rules).length + 2)
        (fun _ => 0)).2 <;> simp
    have hcon := csLoop_false (posDepsOf rules) (negDepsOf rules) (rulePreds rules) _ _ hflag'
    subst h'
    constructor
    · intro p q hpq
      have hp : p ∈ rulePreds rules := posDepsOf_head_preds hpq
      have hq : q ∈ rulePreds rules := posDepsOf_subset_preds hpq
      rw [strataGet_map _ _ q hq, strataGet_map _ _ p hp]
      exact (hcon p hp).1 q hpq
    · intro p q hpq
      have hp : p ∈ rulePreds rules := negDepsOf_head_preds hpq
      have hq : q ∈ rulePreds rules := negDepsOf_subset_preds hpq
      rw [strataGet_map _ _ q hq, strataGet_map _ _ p hp]
      exact (hcon p hp).2 q hpq

theorem appSub_keep_true (r : Rule) : ∀ (subs : List Sub) (G : Facts) (out : Facts × Bool),
    applySubsts r subs G true = Except.ok out → out.2 = true
  | [], G, out, h => by
    simp only [applySubsts] at h
    cases h
    rfl
  | s :: rest, G, out, h => by
    unfold applySubsts at h
    by_cases h1 : (applyArgs r.head_args s).any isVarT
    · rw [if_pos h1] at h
      exact appSub_keep_true r rest G out h
    · rw [if_neg h1] at h
      by_cases h2 : applyArgs r.head_args s ∈ fGet G r.head_pred
      · rw [if_pos h2] at h
        exact appSub_keep_true r rest G out h
      · rw [if_neg h2] at h
        by_cases h3 : r.head_pred ∈ rulePosPreds r
        · rw [if_pos h3] at h
          exact Except.noConfusion h
        · rw [if_neg h3] at h
          exact appSub_keep_true r rest _ out h

theorem applySubsts_false (r : Rule) : ∀ (subs : List Sub) (G : Facts) (ch : Bool) (F2 : Facts),
    applySubsts r subs G ch = Except.ok (F2, false) → ch = false ∧ F2 = G
  | [], G, ch, F2, h => by
    simp [applySubsts] at h
    exact ⟨h.2, h.1.symm⟩
  | s :: rest, G, ch, F2, h => by
    unfold applySubsts at h
    by_cases h1 : (applyArgs r.head_args s).any isVarT
    · rw [if_pos h1] at h
      exact applySubsts_false r rest G ch F2 h
    · rw [if_neg h1] at h
      by_cases h2 : applyArgs r.head_args s ∈ fGet G r.head_pred
      · rw [if_pos h2] at h
        exact applySubsts_false r rest G ch F2 h
      · rw [if_neg h2] at h
        by_cases h3 : r.head_pred ∈ rulePosPreds r
        · rw [if_pos h3] at h
          exact Except.noConfusion h
        · rw [if_neg h3] at h
          have := appSub_keep_true r rest _ (F2, false) h
          exact absurd this (by simp)

theorem evalPass_false : ∀ (rules' : List Rule) (G : Facts) (ch : Bool) (F2 : Facts),
    evalPass rules' G ch = Except.ok (F2, false) → ch = false ∧ F2 = G
  | [], G, ch, F2, h => by
    simp [evalPass] at h
    exact ⟨h.2, h.1.symm⟩
  | r :: rest, G, ch, F2, h => by
    unfold evalPass at h
    cases hap : applySubsts r (matchBody G r.body []) G ch with
    | error e => rw [hap] at h; exact Except.noConfusion h
    | ok s =>
      obtain ⟨G1, b⟩ := s
      rw [hap] at h
      obtain ⟨hb, hF⟩ := evalPass_false rest G1 b F2 h
      subst hb
      obtain ⟨hch, hG⟩ := applySubsts_false r (matchBody G r.body []) G ch G1 hap
      exact ⟨hch, hF.trans hG⟩

theorem evalStratum_ok_fix : ∀ (rules' : List Rule) (fuel : Nat) (G F' : Facts),
    evalStratum rules' fuel G = Except.ok F' →
    evalPass rules' F' false = Except.ok (F', false)
  | _, 0, _, _, h => by simp [evalStratum] at h
  | rules', fuel + 1, G, F', h => by
    unfold evalStratum at h
    cases hp : evalPass rules' G false with
    | error e => rw [hp] at h; exact Except.noConfusion h
    | ok s =>
      obtain ⟨G1, b⟩ := s
      rw [hp] at h
      cases b with
      | true =>
        simp at h
        exact evalStratum_ok_fix rules' fuel G1 F' h
      | false =>
        simp at h
        obtain ⟨-, hG⟩ := evalPass_false rules' G false G1 hp
        rw [← h, hG]
        rw [hG] at hp
        exact hp

theorem applySubsts_preserve (r : Rule) : ∀ (subs : List Sub) (G : Facts) (ch : Bool)
    (F2 : Facts) (ch2 : Bool), applySubsts r subs G ch = Except.ok (F2, ch2) →
    ∀ q, q ≠ r.head_pred → fGet F2 q = fGet G q
  | [], G, ch, F2, ch2, h, q, hq => by
    simp [applySubsts] at h
    rw [h.1]
  | s :: rest, G, ch, F2, ch2, h, q, hq => by
    unfold applySubsts at h
    by_cases h1 : (applyArgs r.head_args s).any isVarT
    · rw [if_pos h1] at h
      exact applySubsts_preserve r rest G ch F2 ch2 h q hq
    · rw [if_neg h1] at h
      by_cases h2 : applyArgs r.head_args s ∈ fGet G r.head_pred
      · rw [if_pos h2] at h
        exact applySubsts_preserve r rest G ch F2 ch2 h q hq
      · rw [if_neg h2] at h
        by_cases h3 : r.head_pred ∈ rulePosPreds r
        · rw [if_pos h3] at h
          exact Except.noConfusion h
        · rw [if_neg h3] at h
          have hrec := applySubsts_preserve r rest _ true F2 ch2 h q hq
          rw [hrec, fGet_fAdd, if_neg hq]

theorem evalPass_preserve : ∀ (rules' : List Rule) (G : Facts) (ch : Bool)
    (F2 : Facts) (ch2 : Bool), evalPass rules' G ch = Except.ok (F2, ch2) →
    ∀ q, (∀ r ∈ rules', r.head_pred ≠ q) → fGet F2 q = fGet G q
  | [], G, ch, F2, ch2, h, q, _ => by
    simp [evalPass] at h
    rw [h.1]
  | r :: rest, G, ch, F2, ch2, h, q, hhead => by
    unfold evalPass at h
    cases hap : applySubsts r (matchBody G r.body []) G ch with
    | error e => rw [hap] at h; exact Except.noConfusion h
    | ok s =>
      obtain ⟨G1, b⟩ := s
      rw [hap] at h
      have h1 := applySubsts_preserve r (matchBody G r.body []) G ch G1 b hap q
        (Ne.symm (hhead r (List.mem_cons_self _ _)))
      have h2 := evalPass_preserve rest G1 b F2 ch2 h q
        (fun r' hr' => hhead r' (List.mem_cons_of_mem _ hr'))
      rw [h2, h1]

theorem evalStratum_preserve : ∀ (rules' : List Rule) (fuel : Nat) (G F' : Facts),
    evalStratum rules' fuel G = Except.ok F' →
    ∀ q, (∀ r ∈ rules', r.head_pred ≠ q) → fGet F' q = fGet G q
  | _, 0, _, _, h, _, _ => by simp [evalStratum] at h
  | rules', fuel + 1, G, F', h, q, hhead => by
    unfold evalStratum at h
    cases hp : evalPass rules' G false with
    | error e => rw [hp] at h; exact Except.noConfusion h
    | ok s =>
      obtain ⟨G1, b⟩ := s
      rw [hp] at h
      cases b with
      | true =>
        simp at h
        have h1 := evalPass_preserve rules' G false G1 true hp q hhead
        have h2 := evalStratum_preserve rules' fuel G1 F' h q hhead
        rw [h2, h1]
      | false =>
        simp at h
        rw [← h]
        exact evalPass_preserve rules' G false G1 false hp q hhead

theorem runStrata_preserve (R : List Rule) (St : List (String × Nat)) :
    ∀ (l : List Nat) (G F' : Facts), runStrata R St l G = Except.ok F' →
      ∀ q, strataGet St q ∉ l → fGet F' q = fGet G q
  | [], G, F', h, q, _ => by
    simp [runStrata] at h
    rw [h]
  | s0 :: rest, G, F', h, q, hq => by
    unfold runStrata at h
    cases hs : evalStratum (R.filter (fun r => strataGet St r.head_pred == s0))
        MAX_STRATUM_ITERS G with
    | error e => rw [hs] at h; exact Except.noConfusion h
    | ok F1 =>
      rw [hs] at h
      have hq0 : strataGet St q ≠ s0 := fun he => hq (he ▸ List.mem_cons_self _ _)
      have h1 := evalStratum_preserve _ _ _ _ hs q (by
        intro r hr he
        rw [List.mem_filter] at hr
        have h3 : strataGet St r.head_pred = s0 := by simpa using hr.2
        exact hq0 (he ▸ h3))
      have h2 := runStrata_preserve R St rest F1 F' h q
        (fun hm => hq (List.mem_cons_of_mem _ hm))
      rw [h2, h1]

theorem matchBody_ext : ∀ (body : List Atom) (F1 F2 : Facts) (s : Sub),
    (∀ a ∈ body, isBuiltinPred a.pred = false → fGet F1 a.pred = fGet F2 a.pred) →
    matchBody F1 body s = matchBody F2 body s
  | [], _, _, _, _ => rfl
  | a :: rest, F1, F2, s, hext => by
    have hrest : ∀ a' ∈ rest, isBuiltinPred a'.pred = false →
        fGet F1 a'.pred = fGet F2 a'.pred :=
      fun a' ha' => hext a' (List.mem_cons_of_mem _ ha')
    simp only [matchBody]
    by_cases hb : isBuiltinPred a.pred
    · rw [if_pos hb, if_pos hb]
      by_cases hv : (applyArgs a.args s).any isVarT
      · rw [if_pos hv, if_pos hv]
      · rw [if_neg hv, if_neg hv]
        by_cases he : (evalBuiltin a.pred (applyArgs a.args s) != a.negated) = true
        · rw [if_pos he, if_pos he]
          exact matchBody_ext rest F1 F2 s hrest
        · rw [if_neg he, if_neg he]
    · have hb' : isBuiltinPred a.pred = false := by simpa using hb
      rw [if_neg hb, if_neg hb]
      have hf := hext a (List.mem_cons_self _ _) hb'
      by_cases hn : a.negated
      · rw [if_pos hn, if_pos hn]
        by_cases hv : (applyArgs a.args s).any isVarT
        · rw [if_pos hv, if_pos hv]
        · rw [if_neg hv, if_neg hv, hf]
          by_cases hm : applyArgs a.args s ∈ fGet F2 a.pred
          · rw [if_pos hm, if_pos hm]
          · rw [if_neg hm, if_neg hm]
            exact matchBody_ext rest F1 F2 s hrest
      · rw [if_neg hn, if_neg hn, hf]
        have hfun : (fun s' => matchBody F1 rest s') = (fun s' => matchBody F2 rest s') :=
          funext (fun s' => matchBody_ext rest F1 F2 s' hrest)
        rw [hfun]

theorem applySubsts_transfer (r : Rule) (F F' : Facts)
    (hhead : fGet F r.head_pred = fGet F' r.head_pred) :
    ∀ (subs : List Sub), applySubsts r subs F' false = Except.ok (F', false) →
      applySubsts r subs F false = Except.ok (F, false)
  | [], _ => rfl
  | s :: rest, h => by
    unfold applySubsts at h ⊢
    by_cases h1 : (applyArgs r.head_args s).any isVarT
    · rw [if_pos h1] at h ⊢
      exact applySubsts_transfer r F F' hhead rest h
    · rw [if_neg h1] at h ⊢
      by_cases h2 : applyArgs r.head_args s ∈ fGet F' r.head_pred
      · rw [if_pos h2] at h
        rw [if_pos (by rw [hhead]; exact h2)]
        exact applySubsts_transfer r F F' hhead rest h
      · rw [if_neg h2] at h
        by_cases h3 : r.head_pred ∈ rulePosPreds r
        · rw [if_pos h3] at h
          exact Except.noConfusion h
        · rw [if_neg h3] at h
          have := appSub_keep_true r rest _ (F', false) h
          exact absurd this (by simp)

theorem evalPass_transfer : ∀ (rules' : List Rule) (F F' : Facts),
    (∀ r ∈ rules', matchBody F r.body [] = matchBody F' r.body [] ∧
      fGet F r.head_pred = fGet F' r.head_pred) →
    evalPass rules' F' false = Except.ok (F', false) →
    evalPass rules' F false = Except.ok (F, false)
  | [], _, _, _, _ => rfl
  | r :: rest, F, F', hext, h => by
    unfold evalPass at h ⊢
    cases hap : applySubsts r (matchBody F' r.body []) F' false with
    | error e => rw [hap] at h; exact Except.noConfusion h
    | ok s =>
      obtain ⟨G1, b⟩ := s
      rw [hap] at h
      obtain ⟨hb, hG⟩ := evalPass_false rest G1 b F' h
      subst hb
      subst hG
      have happF := applySubsts_transfer r F F' (hext r (List.mem_cons_self _ _)).2
        (matchBody F' r.body []) hap
      rw [(hext r (List.mem_cons_self _ _)).1, happF]
      show evalPass rest F false = Except.ok (F, false)
      exact evalPass_transfer rest F F'
        (fun r' hr' => hext r' (List.mem_cons_of_mem _ hr')) h

theorem evalStratum_of_fix (rules' : List Rule) (F : Facts) (fuel : Nat)
    (h : evalPass rules' F false = Except.ok (F, false)) :
    evalStratum rules' (fuel + 1) F = Except.ok F := by
  unfold evalStratum
  rw [h]
  rfl

theorem runStrata_of_fix (R : List Rule) (St : List (String × Nat)) :
    ∀ (l : List Nat) (F : Facts),
      (∀ s ∈ l, evalPass (R.filter (fun r => strataGet St r.head_pred == s)) F false
        = Except.ok (F, false)) →
      runStrata R St l F = Except.ok F
  | [], _, _ => rfl
  | s0 :: rest, F, hfix => by
    unfold runStrata
    have h0 := evalStratum_of_fix
      (R.filter (fun r => strataGet St r.head_pred == s0)) F 99999
      (hfix s0 (List.mem_cons_self _ _))
    have hM : MAX_STRATUM_ITERS = 99999 + 1 := rfl
    rw [hM, h0]
    exact runStrata_of_fix R St rest F (fun s hs => hfix s (List.mem_cons_of_mem _ hs))

theorem stratum_fix_final (R : List Rule) (St : List (String × Nat))
    (hpos : ∀ r ∈ R, ∀ a ∈ r.body, isBuiltinPred a.pred = false → a.negated = false →
        strataGet St a.pred ≤ strataGet St r.head_pred)
    (hneg : ∀ r ∈ R, ∀ a ∈ r.body, isBuiltinPred a.pred = false → a.negated = true →
        strataGet St a.pred < strataGet St r.head_pred) :
    ∀ (l : List Nat), l.Pairwise (· < ·) →
      ∀ (F0 F : Facts), runStrata R St l F0 = Except.ok F →
      ∀ s ∈ l, evalPass (R.filter (fun r => strataGet St r.head_pred == s)) F false
        = Except.ok (F, false)
  | [], _, _, _, _, s, hs => absurd hs (List.not_mem_nil s)
  | s0 :: rest, hpw, F0, F, hrun, s, hs => by
    obtain ⟨hlt, hpw'⟩ := List.pairwise_cons.mp hpw
    unfold runStrata at hrun
    cases hstep : evalStratum (R.filter (fun r => strataGet St r.head_pred == s0))
        MAX_STRATUM_ITERS F0 with
    | error e => rw [hstep] at hrun; exact Except.noConfusion hrun
    | ok F1 =>
      rw [hstep] at hrun
      rcases List.mem_cons.mp hs with rfl | hs'
      · have hfix1 := evalStratum_ok_fix _ _ _ _ hstep
        refine evalPass_transfer _ F F1 ?_ hfix1
        intro r hr
        rw [List.mem_filter] at hr
        obtain ⟨hrR, hrs⟩ := hr
        have hheadS : strataGet St r.head_pred = s := by simpa using hrs
        have hpres : ∀ q, strataGet St q ∉ rest → fGet F q = fGet F1 q :=
          fun q hq => runStrata_preserve R St rest F1 F hrun q hq
        constructor
        · apply matchBody_ext
          intro a ha hab
          apply hpres
          intro hmem
          have hlt' := hlt _ hmem
          by_cases hn : a.negated
          · have hcmp := hneg r hrR a ha hab hn
            omega
          · have hn' : a.negated = false := by simpa using hn
            have hcmp := hpos r hrR a ha hab hn'
            omega
        · apply hpres
          rw [hheadS]
          intro hmem
          exact absurd (hlt _ hmem) (lt_irrefl s)
      · exact stratum_fix_final R St hpos hneg rest hpw' F1 F hrun s hs'

/-- Claim C9: running a successfully constructed evaluator a second time
after a completed first call returns the same fact store: the saturated
store is a fixed point and the second `evaluate()` adds no fact. -/
theorem c9_evaluate_idem (rules : List Rule) (S : Facts) (conds : Conds)
    (ev : Evaluator) (F : Facts) (ev' : Evaluator)
    (hmk : mkEvaluator rules S conds = Except.ok ev)
    (heval : ev.evaluate = Except.ok (F, ev')) :
    ev'.evaluate = Except.ok (F, ev') := by
  obtain ⟨hrules, hstrata, hfacts⟩ := mkEvaluator_ok hmk
  obtain ⟨hposE, hnegE⟩ := compute_strata_ok_constraints hstrata
  have hpos : ∀ r ∈ ev.rules, ∀ a ∈ r.body, isBuiltinPred a.pred = false → a.negated = false →
      strataGet ev.strata a.pred ≤ strataGet ev.strata r.head_pred := by
    intro r hr a ha hb hn
    exact hposE r.head_pred a.pred (mem_posDepsOf.mpr ⟨r, hr, rfl, a, ha, hb, hn, rfl⟩)
  have hneg : ∀ r ∈ ev.rules, ∀ a ∈ r.body, isBuiltinPred a.pred = false → a.negated = true →
      strataGet ev.strata a.pred < strataGet ev.strata r.head_pred := by
    intro r hr a ha hb hn
    exact hnegE r.head_pred a.pred (mem_negDepsOf.mpr ⟨r, hr, rfl, a, ha, hb, hn, rfl⟩)
  unfold Evaluator.evaluate at heval
  dsimp only at heval
  cases hrun : runStrata ev.rules ev.strata
      (List.range ((ev.strata.map Prod.snd).foldl Nat.max 0 + 1)) ev.facts with
  | error e => rw [hrun] at heval; exact Except.noConfusion heval
  | ok F1 =>
    rw [hrun] at heval
    injection heval with hpair
    have hF : F1 = F := congrArg Prod.fst hpair
    have hev' : ({ ev with facts := F1 } : Evaluator) = ev' := congrArg Prod.snd hpair
    subst hF
    subst hev'
    have hfix := stratum_fix_final ev.rules ev.strata hpos hneg
      (List.range ((ev.strata.map Prod.snd).foldl Nat.max 0 + 1))
      (List.pairwise_lt_range _) ev.facts F1 hrun
    unfold Evaluator.evaluate
    dsimp only
    have hrun2 := runStrata_of_fix ev.rules ev.strata
      (List.range ((ev.strata.map Prod.snd).foldl Nat.max 0 + 1)) F1 hfix
    rw [hrun2]

/-- Witness for C9 at a concrete run: the evaluator that derives `q(a)`
from `p(a)` returns the saturated store unchanged when run again. -/
theorem c9_evaluate_idem_witness :
    Evaluator.evaluate
        ⟨[⟨"r", "f", "q", ["?X"], [⟨"p", ["?X"], false⟩]⟩], [("q", 0), ("p", 0)],
          [("p", [["a"]]), ("q", [["a"]])]⟩
      = Except.ok ([("p", [["a"]]), ("q", [["a"]])],
        ⟨[⟨"r", "f", "q", ["?X"], [⟨"p", ["?X"], false⟩]⟩], [("q", 0), ("p", 0)],
          [("p", [["a"]]), ("q", [["a"]])]⟩) :=
  c9_evaluate_idem [⟨"r", "f", "q", ["?X"], [⟨"p", ["?X"], false⟩]⟩] [("p", [["a"]])] []
    ⟨[⟨"r", "f", "q", ["?X"], [⟨"p", ["?X"], false⟩]⟩], [("q", 0), ("p", 0)], [("p", [["a"]])]⟩
    [("p", [["a"]]), ("q", [["a"]])]
    ⟨[⟨"r", "f", "q", ["?X"], [⟨"p", ["?X"], false⟩]⟩], [("q", 0), ("p", 0)],
      [("p", [["a"]]), ("q", [["a"]])]⟩
    rfl rfl

end PN2
